import Mathlib

/-!
# A shallow embedding of the `mm.c` implicit-list allocator

This file models the allocator in `src/mm.c` (implicit free list, next-fit
placement, boundary-tag coalescing) over an explicit byte-addressed arena,
following the re-architecture sketch of the specification (§9): the arena is a
total function from byte addresses to byte values together with a current
break (`brk`) and a capacity (`cap`), block "pointers" are `Nat` offsets into
the arena, and C's `NULL` becomes `Option.none`.

Machine-integer behaviour is made explicit:
* 32-bit words (`uint32_t`) are read/written little-endian through `GET`/`PUT`
  with truncation `% 2^32` on writes;
* `size_t` (64-bit) subtraction in `place` is modelled by `sub64`
  (wrap-around at `2^64`);
* the `uint32_t` additions in `mm_realloc`'s in-place-grow test and in
  `extend_heap`'s word rounding wrap at `2^32`;
* the `int`-typed `MAX` of `mm_malloc` receives its first argument through the
  (implementation-defined, wrap-around) `uint32_t → int` conversion `toInt32`.

The memory-region facility (`memlib`) is not part of `src/`; `mem_sbrk` and
the fresh arena `initialState` are modelled from the spec (§6): `mem_sbrk`
grows the arena monotonically, returning the old break, and fails (sentinel
`none`, C's `(void *)-1`) whenever the requested growth would exceed the
capacity of the backing region.
-/

/-- Arena memory: byte address to stored value.  Writes performed by the model
store genuine bytes (`< 256`); reads mask with `% 256` as a byte fetch. -/
def Mem : Type := Nat → Nat

/-- Write one byte. -/
def writeByte (m : Mem) (a v : Nat) : Mem := fun x => if x = a then v else m x

/-- `GET`: read a 32-bit word at address `p`, little-endian (mm.c line 81). -/
def GET (m : Mem) (p : Nat) : Nat :=
  m p % 256 + 256 * (m (p + 1) % 256) + 65536 * (m (p + 2) % 256) +
    16777216 * (m (p + 3) % 256)

/-- `PUT`: write the 32-bit word `v` at address `p`, little-endian
(mm.c lines 82-85). -/
def PUT (m : Mem) (p v : Nat) : Mem :=
  writeByte (writeByte (writeByte (writeByte m p (v % 256))
    (p + 1) (v / 256 % 256)) (p + 2) (v / 65536 % 256)) (p + 3) (v / 16777216 % 256)

/-- word size (bytes), mm.c line 57. -/
def WSIZE : Nat := 4
/-- doubleword size (bytes), mm.c line 58. -/
def DSIZE : Nat := 8
/-- initial heap size (bytes), mm.c line 59. -/
def CHUNKSIZE : Nat := 4096
/-- overhead of header and footer (bytes), mm.c line 60. -/
def OVERHEAD : Nat := 8

/-- `PACK(size, alloc) = size | (alloc & 0x1)` (mm.c lines 73-76).  `size`
arrives as a `uint32_t`, hence the `% 2^32`; `alloc & 0x1` is the low bit. -/
def PACK (size alloc : Nat) : Nat := Nat.lor (size % 2 ^ 32) (alloc % 2)

/-- `GET_SIZE(p) = GET(p) & ~0x7`: clear the three low bits, i.e. subtract
`GET(p) % 8` (mm.c lines 90-93). -/
def GET_SIZE (m : Mem) (p : Nat) : Nat := GET m p - GET m p % 8

/-- `GET_ALLOC(p) = GET(p) & 0x1` (mm.c lines 95-98). -/
def GET_ALLOC (m : Mem) (p : Nat) : Nat := GET m p % 2

/-- `HEADER(bp) = bp - WSIZE` (mm.c lines 103-107). -/
def HEADER (bp : Nat) : Nat := bp - WSIZE

/-- `FOOTER(bp) = bp + GET_SIZE(HEADER(bp)) - DSIZE` (mm.c lines 108-111). -/
def FOOTER (m : Mem) (bp : Nat) : Nat := bp + GET_SIZE m (HEADER bp) - DSIZE

/-- `SET_BLOCK_DATA(bp, size, alloc)` writes `PACK(size, alloc)` to the header
and then to the footer, the footer address being computed from the freshly
written header (mm.c lines 113-118). -/
def SET_BLOCK_DATA (m : Mem) (bp size alloc : Nat) : Mem :=
  let boundaryData := PACK size alloc
  let m1 := PUT m (HEADER bp) boundaryData
  PUT m1 (FOOTER m1 bp) boundaryData

/-- `NEXT_BLOCK(bp) = bp + GET_SIZE(bp - WSIZE)` (mm.c lines 123-126). -/
def NEXT_BLOCK (m : Mem) (bp : Nat) : Nat := bp + GET_SIZE m (bp - WSIZE)

/-- `PREVIOUS_BLOCK(bp) = bp - GET_SIZE(bp - DSIZE)` (mm.c lines 128-131). -/
def PREVIOUS_BLOCK (m : Mem) (bp : Nat) : Nat := bp - GET_SIZE m (bp - DSIZE)

/-- 64-bit (`size_t`) wrap-around subtraction, for `csize - asize` in
`place`. -/
def sub64 (a b : Nat) : Nat := (a + 2 ^ 64 - b) % 2 ^ 64

/-- `MAX` on `int` (mm.c lines 63-66). -/
def MAX (x y : Int) : Int := if x > y then x else y

/-- The (implementation-defined, wrap-around) `uint32_t → int` conversion used
when `asize` is passed to `MAX` in `mm_malloc`. -/
def toInt32 (v : Nat) : Int := if v < 2 ^ 31 then (v : Int) else (v : Int) - 2 ^ 32

/-- Allocator state: the arena bytes, the current break (one past the mapped
region), the capacity of the backing region, and the two file-scope globals
`heap_listp` and `next_fit_pointer` (mm.c lines 138-140). -/
structure MMState where
  mem : Mem
  brk : Nat
  cap : Nat
  heap_listp : Nat
  next_fit_pointer : Nat

/-- Modelled from the spec (§6, arena provider): `mem_sbrk(incr)` returns the
old break and grows the arena, or fails with the sentinel (`none`, C's
`(void *)-1`) when the growth would exceed the backing region's capacity.
The corresponding `memlib.c` is not part of `src/`. -/
def mem_sbrk (s : MMState) (incr : Nat) : MMState × Option Nat :=
  if s.cap < s.brk + incr then (s, none)
  else ({ s with brk := s.brk + incr }, some s.brk)

/-- Modelled from the spec (§6): a freshly initialised backing region of
capacity `cap`; nothing is mapped yet and all bytes read as zero. -/
def initialState (cap : Nat) : MMState :=
  { mem := fun _ => 0, brk := 0, cap := cap, heap_listp := 0, next_fit_pointer := 0 }

/-- `coalesce(bp)`: boundary-tag coalescing (mm.c lines 234-267).  Returns the
new state and the pointer to the coalesced block.  The first case returns
early and skips the next-fit-cursor repair; the other three fall through to
it, and the repair's `FOOTER` is evaluated against the updated memory. -/
def coalesce (s : MMState) (bp : Nat) : MMState × Nat :=
  let m := s.mem
  let previousAllocation := GET_ALLOC m (FOOTER m (PREVIOUS_BLOCK m bp))
  let nextAllocation := GET_ALLOC m (HEADER (NEXT_BLOCK m bp))
  let size := GET_SIZE m (HEADER bp)
  if previousAllocation ≠ 0 ∧ nextAllocation ≠ 0 then
    (s, bp)
  else
    let r :=
      if previousAllocation ≠ 0 ∧ nextAllocation = 0 then
        (SET_BLOCK_DATA m bp (size + GET_SIZE m (HEADER (NEXT_BLOCK m bp))) 0, bp)
      else if previousAllocation = 0 ∧ nextAllocation ≠ 0 then
        let bp1 := PREVIOUS_BLOCK m bp
        (SET_BLOCK_DATA m bp1 (size + GET_SIZE m (HEADER bp1)) 0, bp1)
      else
        let size1 := size + GET_SIZE m (HEADER (NEXT_BLOCK m bp))
        let bp1 := PREVIOUS_BLOCK m bp
        (SET_BLOCK_DATA m bp1 (size1 + GET_SIZE m (HEADER bp1)) 0, bp1)
    let nfp :=
      if HEADER r.2 < s.next_fit_pointer ∧ s.next_fit_pointer < FOOTER r.1 r.2 then r.2
      else s.next_fit_pointer
    ({ s with mem := r.1, next_fit_pointer := nfp }, r.2)

/-- `extend_heap(words)` (mm.c lines 177-193).  The odd-word round-up happens
in `uint32_t`, then the byte count lives in `size_t`. -/
def extend_heap (s : MMState) (words : Nat) : MMState × Option Nat :=
  let size := if words % 2 = 1 then (words + 1) % 2 ^ 32 * WSIZE else words * WSIZE
  match mem_sbrk s size with
  | (s1, none) => (s1, none)
  | (s1, some bp) =>
    let m1 := SET_BLOCK_DATA s1.mem bp size 0
    let m2 := PUT m1 (HEADER (NEXT_BLOCK m1 bp)) (PACK 0 1)
    let r := coalesce { s1 with mem := m2 } bp
    (r.1, some r.2)

/-- `mm_init()` (mm.c lines 155-172). -/
def mm_init (s0 : MMState) : MMState × Int :=
  match mem_sbrk s0 (4 * WSIZE) with
  | (s1, none) => (s1, -1)
  | (s1, some hp) =>
    let m := PUT s1.mem hp 0
    let m := PUT m (hp + WSIZE) (PACK OVERHEAD 1)
    let m := PUT m (hp + DSIZE) (PACK OVERHEAD 1)
    let m := PUT m (hp + WSIZE + DSIZE) (PACK 0 1)
    let s2 := { s1 with mem := m, heap_listp := hp + DSIZE, next_fit_pointer := hp + DSIZE }
    match extend_heap s2 (CHUNKSIZE / WSIZE) with
    | (s3, none) => (s3, -1)
    | (s3, some _) => (s3, 0)

/-- The body of `find_fit`'s do/while loop (mm.c lines 200-218), with explicit
fuel: each unit of fuel pays for one loop iteration, and exhausted fuel (which
for the C loop would mean non-termination on a malformed arena) is reported
as a miss.  The cursor is updated only on a hit; the loop stops when the
traversal returns to the starting cursor. -/
def findLoop (s : MMState) (asize bp : Nat) : Nat → MMState × Option Nat
  | 0 => (s, none)
  | fuel + 1 =>
    if GET_ALLOC s.mem (HEADER bp) = 0 ∧ asize ≤ GET_SIZE s.mem (HEADER bp) then
      ({ s with next_fit_pointer := bp }, some bp)
    else
      let bpA := NEXT_BLOCK s.mem bp
      let bpB := if GET_SIZE s.mem (HEADER bpA) = 0 then s.heap_listp else bpA
      if bpB = s.next_fit_pointer then (s, none) else findLoop s asize bpB fuel

/-- `find_fit(asize)`: next-fit search starting at the roving cursor
(mm.c lines 200-218). -/
def find_fit (s : MMState) (asize : Nat) : MMState × Option Nat :=
  findLoop s asize s.next_fit_pointer (s.brk + 1)

/-- `place(bp, asize)` (mm.c lines 310-325).  `csize - asize` is `size_t`
arithmetic, hence `sub64`; the split threshold is `DSIZE + OVERHEAD = 16`. -/
def place (s : MMState) (bp asize : Nat) : MMState :=
  let csize := GET_SIZE s.mem (HEADER bp)
  if DSIZE + OVERHEAD ≤ sub64 csize asize then
    let m1 := SET_BLOCK_DATA s.mem bp asize 1
    let bp1 := NEXT_BLOCK m1 bp
    let m2 := SET_BLOCK_DATA m1 bp1 (sub64 csize asize) 0
    (coalesce { s with mem := m2 } bp1).1
  else
    { s with mem := SET_BLOCK_DATA s.mem bp csize 1 }

/-- `mm_free(bp)` (mm.c lines 223-229). -/
def mm_free (s : MMState) (bp : Nat) : MMState :=
  let size := GET_SIZE s.mem (HEADER bp)
  let m1 := SET_BLOCK_DATA s.mem bp size 0
  (coalesce { s with mem := m1 } bp).1

/-- The adjusted block size computed identically in `mm_malloc`
(mm.c lines 283-286) and `mm_realloc` (mm.c lines 342-345): overhead plus
double-word alignment, with the sum `size + OVERHEAD + (DSIZE-1)` taken in
`uint32_t`. -/
def adjustedSize (size : Nat) : Nat :=
  if size ≤ DSIZE then DSIZE + OVERHEAD
  else DSIZE * ((size + OVERHEAD + (DSIZE - 1)) % 2 ^ 32 / DSIZE)

/-- `mm_malloc(size)` (mm.c lines 272-301).  `size` is a `uint32_t`, so the
C test `size <= 0` is `size == 0`; `MAX` is `int`-typed, hence `toInt32`. -/
def mm_malloc (s : MMState) (size : Nat) : MMState × Option Nat :=
  if size = 0 then (s, none)
  else
    let asize := adjustedSize size
    match find_fit s asize with
    | (s1, some bp) => (place s1 bp asize, some bp)
    | (s1, none) =>
      let extendsize := MAX (toInt32 asize) (Int.ofNat CHUNKSIZE)
      match extend_heap s1 (extendsize.toNat / WSIZE) with
      | (s2, none) => (s2, none)
      | (s2, some bp) => (place s2 bp asize, some bp)

/-- Copy `n` bytes from `src` to `dst`, low address first (the `memcpy` call
of `mm_realloc`, mm.c line 370). -/
def memcpy (m : Mem) (dst src : Nat) : Nat → Mem
  | 0 => m
  | n + 1 => memcpy (writeByte m dst (m src)) (dst + 1) (src + 1) n

/-- `mm_realloc(ptr, size)` (mm.c lines 330-373).  The `else if` chain is
exactly the source's: equal size, shrink-in-place, `size < copySize`
(which only reassigns `copySize` and falls through), in-place grow, and the
common `malloc`/`memcpy`/`free` tail.  `mm_malloc` failing inside `realloc`
makes the C program print and `exit(1)`; the model reports that aborted
execution as `none` (the function never returns in C). -/
def mm_realloc (s : MMState) (ptr size : Nat) : MMState × Option Nat :=
  let copySize := GET_SIZE s.mem (HEADER ptr)
  if size = copySize then (s, some ptr)
  else
    let asize := adjustedSize size
    if asize < copySize then
      let m1 := SET_BLOCK_DATA s.mem ptr asize 1
      let m2 := SET_BLOCK_DATA m1 (NEXT_BLOCK m1 ptr) (copySize - asize) 0
      let s2 := (coalesce { s with mem := m2 } (NEXT_BLOCK m2 ptr)).1
      (s2, some ptr)
    else
      let copySize2 := if size < copySize then size else copySize
      if size < copySize then
        match mm_malloc s size with
        | (s1, none) => (s1, none)
        | (s1, some newp) =>
          let m2 := memcpy s1.mem newp ptr copySize2
          (mm_free { s1 with mem := m2 } ptr, some newp)
      else if GET_ALLOC s.mem (HEADER (NEXT_BLOCK s.mem ptr)) = 0 ∧
          asize ≤ (GET_SIZE s.mem (HEADER (NEXT_BLOCK s.mem ptr)) + copySize) % 2 ^ 32 then
        (place s ptr asize, some ptr)
      else
        match mm_malloc s size with
        | (s1, none) => (s1, none)
        | (s1, some newp) =>
          let m2 := memcpy s1.mem newp ptr copySize2
          (mm_free { s1 with mem := m2 } ptr, some newp)

/-- The implicit block list of the arena (spec §4.8 and glossary): walk from a
block pointer by header sizes, recording `(payload pointer, size, alloc bit)`,
stopping at the first zero-size header (the epilogue).  `fuel` bounds the
number of blocks visited. -/
def walkBlocks (m : Mem) : Nat → Nat → List (Nat × Nat × Nat)
  | _, 0 => []
  | p, fuel + 1 =>
    let sz := GET_SIZE m (HEADER p)
    if sz = 0 then []
    else (p, sz, GET_ALLOC m (HEADER p)) :: walkBlocks m (p + sz) fuel

/-!
## Concrete execution traces

The states below replay the spec's concrete scenarios (§8) against the model.
All arenas use a backing capacity of 100000 bytes except where exhaustion is
the point.  `sInit` is the freshly initialised heap: prologue `(8, 8, 1)`,
one 4096-byte free block, epilogue at offset 4108, break 4112.
-/

/-- A fresh arena of capacity 100000 bytes. -/
def sEmpty : MMState := initialState 100000

/-- The heap right after `mm_init`. -/
def sInit : MMState := (mm_init sEmpty).1

/-- After `a = mm_malloc 24` (returns payload pointer 16, block size 32). -/
def sA : MMState := (mm_malloc sInit 24).1

/-- After `b = mm_malloc 24` (returns payload pointer 48, block size 32). -/
def sB : MMState := (mm_malloc sA 24).1

/-- After `mm_free b`: the heap of spec scenario 5, `a` live at 16 followed by
a free block of size 4064 at 48. -/
def sFree : MMState := mm_free sB 48

/-- After `mm_realloc (a := 16) 40` on `sFree`: the in-place-grow path of
`mm_realloc` runs `place` without first rewriting the header to the combined
size, so `place` underflows `csize - asize` and emits a residual "free block"
of size `2^32 - 16` at offset 64. -/
def sGrow : MMState := (mm_realloc sFree 16 40).1

/-- `mm_free a` on the corrupted heap `sGrow`. -/
def sGrowFree : MMState := mm_free sGrow 16

/-- After `a = mm_malloc 32` on a fresh heap (payload pointer 16, block size
40). -/
def sC32 : MMState := (mm_malloc sInit 32).1

/-- After a further `b = mm_malloc 8` (payload pointer 56, block size 16). -/
def sD8 : MMState := (mm_malloc sC32 8).1

/-- A tight arena: `mm_init` succeeds (break 4112 = capacity), after which no
extension can succeed. -/
def sTight : MMState := (mm_init (initialState 4112)).1

set_option maxRecDepth 1000000

/-!
## Basic lemmas about the search loop
-/

/-- `findLoop` never changes the state on a miss. -/
theorem findLoop_none_state (s : MMState) (asize : Nat) :
    ∀ fuel bp, (findLoop s asize bp fuel).2 = none → (findLoop s asize bp fuel).1 = s := by
  intro fuel
  induction fuel with
  | zero => intro bp _; rfl
  | succ n ih =>
    intro bp h
    unfold findLoop at h ⊢
    by_cases hhit : GET_ALLOC s.mem (HEADER bp) = 0 ∧ asize ≤ GET_SIZE s.mem (HEADER bp)
    · simp [hhit] at h
    · simp only [if_neg hhit] at h ⊢
      by_cases hcyc : (if GET_SIZE s.mem (HEADER (NEXT_BLOCK s.mem bp)) = 0 then s.heap_listp
          else NEXT_BLOCK s.mem bp) = s.next_fit_pointer
      · simp [hcyc]
      · simp only [if_neg hcyc] at h ⊢
        exact ih _ h

/-- The number of bytes `extend_heap` requests from the arena provider when
`mm_malloc size` misses: `MAX(asize, CHUNKSIZE)` in words, rounded up to an
even word count (mm.c lines 296-297 and 183). -/
def extendAmount (size : Nat) : Nat :=
  let asize := adjustedSize size
  let words := (MAX (toInt32 asize) (Int.ofNat CHUNKSIZE)).toNat / WSIZE
  if words % 2 = 1 then (words + 1) % 2 ^ 32 * WSIZE else words * WSIZE
/-- Claim C9: `mm_malloc` returns null without changing any heap state when
the request is zero (`size ≤ 0` on the `uint32_t` argument), and returns null
with the whole state unchanged when no free block fits (`find_fit` misses)
and the arena extension request exceeds the backing region's capacity; both
errors surface only as the null sentinel (the model of `mm_malloc` has no
abort path). -/
theorem c9_malloc_error_sentinels (s : MMState) (n : Nat) :
    mm_malloc s 0 = (s, none) ∧
      (0 < n → (find_fit s (adjustedSize n)).2 = none →
        s.cap < s.brk + extendAmount n → mm_malloc s n = (s, none)) := by
  constructor
  · simp [mm_malloc]
  · intro hn h2 h3
    have hstate : (find_fit s (adjustedSize n)).1 = s :=
      findLoop_none_state s _ _ _ h2
    have heq : find_fit s (adjustedSize n) = (s, none) := by
      rw [Prod.ext_iff]; exact ⟨hstate, h2⟩
    have hn0 : ¬ n = 0 := Nat.pos_iff_ne_zero.mp hn
    simp only [extendAmount] at h3
    have hext : extend_heap s
        ((MAX (toInt32 (adjustedSize n)) (Int.ofNat CHUNKSIZE)).toNat / WSIZE) = (s, none) := by
      simp only [extend_heap, mem_sbrk]
      rw [if_pos h3]
    simp only [mm_malloc, if_neg hn0, heq, hext]

theorem c9_witness :
    mm_malloc sTight 0 = (sTight, none) ∧ mm_malloc sTight 8192 = (sTight, none) :=
  ⟨(c9_malloc_error_sentinels sTight 8192).1,
    (c9_malloc_error_sentinels sTight 8192).2 (by decide) (by decide) (by decide)⟩

/-- Claim C8: if the size requested from `mm_realloc` equals `copySize`, the
block's current total size as read from its header, `mm_realloc` returns
`ptr` unchanged and modifies no heap state. -/
theorem c8_equal_size_noop (s : MMState) (ptr size : Nat)
    (h : size = GET_SIZE s.mem (HEADER ptr)) :
    mm_realloc s ptr size = (s, some ptr) := by
  simp [mm_realloc, h]

theorem c8_witness : mm_realloc sA 16 32 = (sA, some 16) :=
  c8_equal_size_noop sA 16 32 (by decide)

/-- Claim C1, counterexample: after `init(); a = malloc(24)` the block at 16
has total size 32.  `realloc(a, 32)` takes the `size == copySize` early
return: it hands back the same block, whose payload capacity (header size
minus the 8 bytes of overhead) is only 24 < 32, violating the sufficient-size
claim for `realloc` as stated. -/
theorem c1_counterexample :
    (mm_malloc sInit 24).2 = some 16 ∧
      (mm_realloc sA 16 32).2 = some 16 ∧
      GET_SIZE ((mm_realloc sA 16 32).1).mem (HEADER 16) - OVERHEAD = 24 ∧
      (24 : Nat) < 32 := by
  refine ⟨by decide, by decide, by decide, by decide⟩

/-- Claim C2, the code evaluated at the failing input: in
`init(); a = malloc 24; b = malloc 24; free b` (state `sFree`), block `b`'s
former region is a free block of size 4064 at 48, so
`next.size + copySize = 4096 ≥ asize = 48` and `realloc(a, 40)` takes the
in-place-grow path.  It does return `a = 16`, but — because `place` is run
with the header still reading 32 — the heap that results is corrupted rather
than consistent: instead of a residual inside the combined 4096-byte span,
the block list now ends with a "free block" at 64 whose header claims
`2^32 - 16` bytes, extending about 4 GiB past the arena break 4112. -/
theorem c2_grow_bug_eval :
    (mm_realloc sFree 16 40).2 = some 16 ∧
      walkBlocks ((mm_realloc sFree 16 40).1).mem 8 20 =
        [(8, 8, 1), (16, 48, 1), (64, 4294967280, 0)] ∧
      ((mm_realloc sFree 16 40).1).brk = 4112 ∧ (4112 : Nat) < 64 + 4294967280 := by
  refine ⟨by decide, by decide, by decide, by decide⟩

/-- Claim C3, the code evaluated at the failing input: with a 40-byte block
`a` at 16 and an allocated block right after it (state `sD8`),
`realloc(a, 24)` shrinks `a` to 32 bytes and emits the 8-byte remainder as a
free block at 48 — a reachable block smaller than the 16-byte minimum. -/
theorem c3_min_block_bug_eval :
    (mm_realloc sD8 16 24).2 = some 16 ∧
      (48, 8, 0) ∈ walkBlocks ((mm_realloc sD8 16 24).1).mem 8 20 ∧
      (8 : Nat) < 16 := by
  refine ⟨by decide, by decide, by decide⟩

/-- Claim C4, the code evaluated at the failing input: freeing `a` on the
heap corrupted by the realloc grow bug (`sGrow`) terminates with the blocks
at 16 (size 32) and 48 (size 4064) physically adjacent (16 + 32 = 48) and
both marked free — `mm_free` returned without coalescing them. -/
theorem c4_adjacent_free_bug_eval :
    walkBlocks sGrowFree.mem 8 20 = [(8, 8, 1), (16, 32, 0), (48, 4064, 0)] ∧
      16 + 32 = 48 := by
  refine ⟨by decide, by decide⟩

/-- Claim C5, the code evaluated at the failing input: after the public
operation `realloc(a, 40)` on `sFree` returns, the next-fit cursor still
holds 48, which is neither the payload pointer of any block in the implicit
block list (whose payload pointers are 8, 16 and 64) nor the prologue footer
`heap_listp = 8`. -/
theorem c5_cursor_bug_eval :
    sGrow.next_fit_pointer = 48 ∧
      (walkBlocks sGrow.mem 8 20).map Prod.fst = [8, 16, 64] ∧
      sGrow.heap_listp = 8 ∧
      ((48 : Nat) ∉ [8, 16, 64] ∧ (48 : Nat) ≠ 8) := by
  refine ⟨by decide, by decide, by decide, by decide⟩

/-- Claim C7, counterexample: `a = malloc 32` gives the block at 16 with
total size 40 and payload `B` of 32 zero bytes.  For the request
`n = 4294967295`, the adjusted size computed in `uint32_t` wraps around to 8,
so `realloc(a, n)` takes the shrink path and writes the new 8-byte block's
footer right at the start of the payload: the returned pointer is `a` but its
first byte is now 9 ≠ 0, although `min (|B|) n = 32 > 0`. -/
theorem c7_counterexample :
    (mm_realloc sC32 16 4294967295).2 = some 16 ∧
      GET_SIZE sC32.mem (HEADER 16) = 40 ∧
      sC32.mem 16 = 0 ∧
      ((mm_realloc sC32 16 4294967295).1).mem 16 = 9 ∧
      (0 : Nat) < min (40 - OVERHEAD) 4294967295 := by
  refine ⟨by decide, by decide, by decide, by decide, by decide⟩

/-! ## Byte/word memory lemmas -/

theorem writeByte_at (m : Mem) (a v : Nat) : writeByte m a v a = v := by
  simp [writeByte]

theorem writeByte_out (m : Mem) (a v x : Nat) (h : x ≠ a) : writeByte m a v x = m x := by
  simp [writeByte, h]

theorem PUT_out (m : Mem) (p v x : Nat) (h : x < p ∨ p + 4 ≤ x) : PUT m p v x = m x := by
  unfold PUT
  rw [writeByte_out, writeByte_out, writeByte_out, writeByte_out] <;> omega


theorem PUT_in (m : Mem) (p v : Nat) :
    PUT m p v p = v % 256 ∧ PUT m p v (p + 1) = v / 256 % 256 ∧
    PUT m p v (p + 2) = v / 65536 % 256 ∧ PUT m p v (p + 3) = v / 16777216 % 256 := by
  unfold PUT
  refine ⟨?_, ?_, ?_, ?_⟩
  · rw [writeByte_out, writeByte_out, writeByte_out, writeByte_at] <;> omega
  · rw [writeByte_out, writeByte_out, writeByte_at] <;> omega
  · rw [writeByte_out, writeByte_at] <;> omega
  · rw [writeByte_at]

theorem GET_PUT (m : Mem) (p v : Nat) : GET (PUT m p v) p = v % 2 ^ 32 := by
  obtain ⟨h0, h1, h2, h3⟩ := PUT_in m p v
  unfold GET
  rw [h0, h1, h2, h3]
  omega

theorem GET_congr (m m' : Mem) (p : Nat) (h : ∀ i, i < 4 → m' (p + i) = m (p + i)) :
    GET m' p = GET m p := by
  unfold GET
  have e0 := h 0 (by omega)
  have e1 := h 1 (by omega)
  have e2 := h 2 (by omega)
  have e3 := h 3 (by omega)
  simp only [Nat.add_zero] at e0
  rw [e0, e1, e2, e3]

theorem GET_PUT_out (m : Mem) (p v q : Nat) (h : q + 4 ≤ p ∨ p + 4 ≤ q) :
    GET (PUT m p v) q = GET m q := by
  refine GET_congr _ _ _ (fun i hi => PUT_out _ _ _ _ ?_)
  omega

theorem GET_lt (m : Mem) (p : Nat) : GET m p < 2 ^ 32 := by
  unfold GET
  have h0 : m p % 256 < 256 := Nat.mod_lt _ (by omega)
  have h1 : m (p + 1) % 256 < 256 := Nat.mod_lt _ (by omega)
  have h2 : m (p + 2) % 256 < 256 := Nat.mod_lt _ (by omega)
  have h3 : m (p + 3) % 256 < 256 := Nat.mod_lt _ (by omega)
  omega

/-! ## `PACK`, `GET_SIZE`, `GET_ALLOC` arithmetic -/

theorem lor_one_of_even (n : Nat) (h : n % 2 = 0) : Nat.lor n 1 = n + 1 := by
  obtain ⟨k, hk⟩ : ∃ k, n = 2 * k := ⟨n / 2, by omega⟩
  have h1 : n = Nat.bit false k := by simp [Nat.bit, hk]
  have h2 : (1 : Nat) = Nat.bit true 0 := rfl
  rw [h1, h2]
  show Nat.bit false k ||| Nat.bit true 0 = Nat.bit false k + 1
  rw [Nat.lor_bit]
  simp [Nat.bit]

theorem PACK_val (s al : Nat) (h8 : s % 8 = 0) (hal : al ≤ 1) :
    PACK s al = s % 2 ^ 32 + al := by
  have hs2 : s % 2 ^ 32 % 2 = 0 := by omega
  unfold PACK
  interval_cases al
  · show s % 2 ^ 32 ||| 0 = s % 2 ^ 32 + 0
    simp [Nat.or_zero]
  · show Nat.lor (s % 2 ^ 32) 1 = s % 2 ^ 32 + 1
    exact lor_one_of_even _ hs2

theorem PACK_lt (s al : Nat) (h8 : s % 8 = 0) (hal : al ≤ 1) : PACK s al < 2 ^ 32 := by
  rw [PACK_val s al h8 hal]
  omega

theorem GET_SIZE_eq (m : Mem) (p x al : Nat) (hx : GET m p = x + al)
    (h8 : x % 8 = 0) (hal : al ≤ 1) : GET_SIZE m p = x := by
  unfold GET_SIZE
  omega

theorem GET_ALLOC_eq (m : Mem) (p x al : Nat) (hx : GET m p = x + al)
    (h8 : x % 8 = 0) (hal : al ≤ 1) : GET_ALLOC m p = al := by
  unfold GET_ALLOC
  omega

/-! ## Agreement outside an interval -/

/-- `m'` agrees with `m` at every address outside `[lo, hi)`. -/
def AgreeOutside (m m' : Mem) (lo hi : Nat) : Prop :=
  ∀ a, a < lo ∨ hi ≤ a → m' a = m a

theorem agreeOutside_rfl (m : Mem) (lo hi : Nat) : AgreeOutside m m lo hi :=
  fun _ _ => rfl

theorem PUT_agreeOutside (m : Mem) (p v : Nat) : AgreeOutside m (PUT m p v) p (p + 4) :=
  fun a ha => PUT_out m p v a ha

theorem agreeOutside_mono (m m' : Mem) (lo hi lo' hi' : Nat)
    (h : AgreeOutside m m' lo hi) (hlo : lo' ≤ lo) (hhi : hi ≤ hi') :
    AgreeOutside m m' lo' hi' :=
  fun a ha => h a (by omega)

theorem agreeOutside_trans (m1 m2 m3 : Mem) (lo hi : Nat)
    (h1 : AgreeOutside m1 m2 lo hi) (h2 : AgreeOutside m2 m3 lo hi) :
    AgreeOutside m1 m3 lo hi :=
  fun a ha => (h2 a ha).trans (h1 a ha)

theorem GET_of_agreeOutside (m m' : Mem) (lo hi p : Nat)
    (h : AgreeOutside m m' lo hi) (hp : p + 4 ≤ lo ∨ hi ≤ p) :
    GET m' p = GET m p := by
  refine GET_congr _ _ _ (fun i hi2 => h _ ?_)
  omega

/-! ## `SET_BLOCK_DATA` unfolded -/

/-- With an aligned size and a boolean alloc bit, `SET_BLOCK_DATA` is two
word writes of `s % 2^32 + al`: to the header `bp - 4`, and to the footer
`bp + s % 2^32 - 8` (the footer address being recomputed from the freshly
written header). -/
theorem SBD_eq (m : Mem) (bp s al : Nat) (h8 : s % 8 = 0) (hal : al ≤ 1) :
    SET_BLOCK_DATA m bp s al =
      PUT (PUT m (bp - 4) (s % 2 ^ 32 + al)) (bp + s % 2 ^ 32 - 8) (s % 2 ^ 32 + al) := by
  unfold SET_BLOCK_DATA
  rw [PACK_val s al h8 hal]
  have hhd : HEADER bp = bp - 4 := rfl
  rw [hhd]
  have hget : GET (PUT m (bp - 4) (s % 2 ^ 32 + al)) (bp - 4) = s % 2 ^ 32 + al := by
    rw [GET_PUT]
    omega
  have hsz : GET_SIZE (PUT m (bp - 4) (s % 2 ^ 32 + al)) (bp - 4) = s % 2 ^ 32 :=
    GET_SIZE_eq _ _ _ _ hget (by omega) hal
  show PUT (PUT m (bp - 4) (s % 2 ^ 32 + al))
      (bp + GET_SIZE (PUT m (bp - 4) (s % 2 ^ 32 + al)) (HEADER bp) - DSIZE)
      (s % 2 ^ 32 + al) = _
  rw [hhd, hsz]
  rfl

/-- Footprint of `SET_BLOCK_DATA` for an aligned size `8 ≤ s < 2^32`:
everything outside `[bp - 4, bp + s - 4)` is untouched. -/
theorem SBD_agreeOutside (m : Mem) (bp s al : Nat) (h8 : s % 8 = 0) (hal : al ≤ 1)
    (hs : 8 ≤ s) (hlt : s < 2 ^ 32) (hbp : 4 ≤ bp) :
    AgreeOutside m (SET_BLOCK_DATA m bp s al) (bp - 4) (bp + s - 4) := by
  rw [SBD_eq m bp s al h8 hal]
  have hmod : s % 2 ^ 32 = s := Nat.mod_eq_of_lt hlt
  rw [hmod]
  intro a ha
  rw [PUT_out, PUT_out] <;> omega

/-!
## The implicit block list as a checkable chain

`chainBlocks m p bs` states that, starting at payload pointer `p`, the arena
parses exactly into the listed blocks `(payload, size, alloc)`: each block's
header holds its listed size and alloc bit, its size is a multiple of 8 and
at least 8, its footer word equals its header word, and the next block starts
immediately after it.  `epiOk` recognises the terminating epilogue header,
and `WfState` is the wellformedness invariant of a heap laid out by `mm_init`
(spec §3): prologue `(8, 8, 1)` first, a chain ending exactly at the break
with an allocated zero-size epilogue, aligned break below `2^31`, and the
next-fit cursor on some block of the list.
-/

/-- One block of the chain: listed payload position, header size/alloc as
listed, aligned size of at least 8, footer word equal to header word. -/
def blockOk (m : Mem) (p : Nat) (b : Nat × Nat × Nat) : Bool :=
  b.1 == p && GET_SIZE m (HEADER p) == b.2.1 && decide (b.2.1 % 8 = 0) &&
    decide (8 ≤ b.2.1) && GET m (p + b.2.1 - 8) == GET m (HEADER p) &&
    GET_ALLOC m (HEADER p) == b.2.2

/-- The arena parses into the given block list starting at `p`. -/
def chainBlocks (m : Mem) : Nat → List (Nat × Nat × Nat) → Bool
  | _, [] => true
  | p, b :: bs => blockOk m p b && chainBlocks m (p + b.2.1) bs

/-- Where the chain ends: start plus the sum of the listed sizes. -/
def endPos : Nat → List (Nat × Nat × Nat) → Nat
  | p, [] => p
  | p, b :: bs => endPos (p + b.2.1) bs

/-- The epilogue: a zero-size allocated header right at the break. -/
def epiOk (m : Mem) (brk p : Nat) : Bool :=
  p == brk && GET_SIZE m (HEADER p) == 0 && GET_ALLOC m (HEADER p) == 1

/-- Wellformedness of the heap structure (everything except the cursor). -/
def WfCore (s : MMState) (bs : List (Nat × Nat × Nat)) : Bool :=
  s.heap_listp == 8 && decide (s.brk % 8 = 0) && decide (s.brk < 2 ^ 31) &&
    decide (s.cap < 2 ^ 31) &&
    (match bs with | (8, 8, 1) :: _ => true | _ => false) &&
    chainBlocks s.mem 8 bs && epiOk s.mem s.brk (endPos 8 bs)

/-- Full wellformedness: structure plus cursor validity. -/
def WfState (s : MMState) (bs : List (Nat × Nat × Nat)) : Bool :=
  WfCore s bs && bs.any (fun b => b.1 == s.next_fit_pointer)

theorem blockOk_spec (m : Mem) (p : Nat) (b : Nat × Nat × Nat) :
    blockOk m p b = true ↔
      b.1 = p ∧ GET_SIZE m (HEADER p) = b.2.1 ∧ b.2.1 % 8 = 0 ∧ 8 ≤ b.2.1 ∧
        GET m (p + b.2.1 - 8) = GET m (HEADER p) ∧ GET_ALLOC m (HEADER p) = b.2.2 := by
  simp [blockOk, and_assoc]

theorem chainBlocks_cons (m : Mem) (p : Nat) (b : Nat × Nat × Nat)
    (bs : List (Nat × Nat × Nat)) :
    chainBlocks m p (b :: bs) = true ↔
      blockOk m p b = true ∧ chainBlocks m (p + b.2.1) bs = true := by
  simp [chainBlocks]

theorem endPos_append (p : Nat) (xs ys : List (Nat × Nat × Nat)) :
    endPos p (xs ++ ys) = endPos (endPos p xs) ys := by
  induction xs generalizing p with
  | nil => rfl
  | cons b xs ih => simp [endPos, ih]

theorem endPos_le (p : Nat) (bs : List (Nat × Nat × Nat)) : p ≤ endPos p bs := by
  induction bs generalizing p with
  | nil => exact Nat.le_refl p
  | cons b bs ih => exact Nat.le_trans (Nat.le_add_right _ _) (ih (p + b.2.1))

theorem chainBlocks_append (m : Mem) (p : Nat) (xs ys : List (Nat × Nat × Nat)) :
    chainBlocks m p (xs ++ ys) = true ↔
      chainBlocks m p xs = true ∧ chainBlocks m (endPos p xs) ys = true := by
  induction xs generalizing p with
  | nil => simp [chainBlocks, endPos]
  | cons b xs ih =>
    simp only [List.cons_append, chainBlocks_cons, endPos, ih, and_assoc]

/-- Every member of a valid chain satisfies its `blockOk` facts, lies inside
the chain's extent and keeps the chain's alignment. -/
theorem chain_mem (m : Mem) (p : Nat) (bs : List (Nat × Nat × Nat))
    (q sz al : Nat) (hch : chainBlocks m p bs = true) (hmem : (q, sz, al) ∈ bs) :
    GET_SIZE m (HEADER q) = sz ∧ sz % 8 = 0 ∧ 8 ≤ sz ∧
      GET m (q + sz - 8) = GET m (HEADER q) ∧ GET_ALLOC m (HEADER q) = al ∧
      p ≤ q ∧ q + sz ≤ endPos p bs ∧ q % 8 = p % 8 := by
  induction bs generalizing p with
  | nil => cases hmem
  | cons b bs ih =>
    obtain ⟨b1, b2, b3⟩ := b
    rw [chainBlocks_cons] at hch
    obtain ⟨hb, hch2⟩ := hch
    rw [blockOk_spec] at hb
    dsimp only at hb hch2
    obtain ⟨hb1, hb2, hb3, hb4, hb5, hb6⟩ := hb
    subst hb1
    have hend : endPos b1 ((b1, b2, b3) :: bs) = endPos (b1 + b2) bs := rfl
    rcases List.mem_cons.mp hmem with heq | hmem2
    · injection heq with h1 h23
      injection h23 with h2 h3
      subst h1; subst h2; subst h3
      refine ⟨hb2, hb3, hb4, hb5, hb6, Nat.le_refl _, ?_, rfl⟩
      rw [hend]
      exact endPos_le (q + sz) bs
    · obtain ⟨i1, i2, i3, i4, i5, i6, i7, i8⟩ := ih (b1 + b2) hch2 hmem2
      rw [hend]
      exact ⟨i1, i2, i3, i4, i5, by omega, i7, by omega⟩

theorem GET_SIZE_congr (m m' : Mem) (p : Nat) (h : GET m' p = GET m p) :
    GET_SIZE m' p = GET_SIZE m p := by
  unfold GET_SIZE
  rw [h]

theorem GET_ALLOC_congr (m m' : Mem) (p : Nat) (h : GET m' p = GET m p) :
    GET_ALLOC m' p = GET_ALLOC m p := by
  unfold GET_ALLOC
  rw [h]

/-- Frame rule: a valid chain only reads bytes in `[p - 4, endPos p bs)`, so
agreement there transports it to a new memory. -/
theorem chainBlocks_frame (m m' : Mem) (p : Nat) (bs : List (Nat × Nat × Nat))
    (hch : chainBlocks m p bs = true)
    (hag : ∀ a, p - 4 ≤ a → a + 4 < endPos p bs → m' a = m a) :
    chainBlocks m' p bs = true := by
  induction bs generalizing p with
  | nil => rfl
  | cons b bs ih =>
    obtain ⟨b1, b2, b3⟩ := b
    rw [chainBlocks_cons] at hch ⊢
    obtain ⟨hb, hch2⟩ := hch
    rw [blockOk_spec] at hb
    dsimp only at hb hch2 ⊢
    obtain ⟨hb1, hb2, hb3, hb4, hb5, hb6⟩ := hb
    subst hb1
    have hendle : b1 + b2 ≤ endPos (b1 + b2) bs := endPos_le _ _
    have hend : endPos b1 ((b1, b2, b3) :: bs) = endPos (b1 + b2) bs := rfl
    rw [hend] at hag
    have hH : GET m' (HEADER b1) = GET m (HEADER b1) := by
      refine GET_congr _ _ _ (fun i hi => hag _ ?_ ?_)
      · show b1 - 4 ≤ b1 - 4 + i
        omega
      · show b1 - 4 + i + 4 < _
        omega
    have hF : GET m' (b1 + b2 - 8) = GET m (b1 + b2 - 8) := by
      refine GET_congr _ _ _ (fun i hi => hag _ (by omega) (by omega))
    refine ⟨?_, ih (b1 + b2) hch2 (fun a h1 h2 => hag a (by omega) h2)⟩
    rw [blockOk_spec]
    dsimp only
    refine ⟨rfl, ?_, hb3, hb4, ?_, ?_⟩
    · rw [GET_SIZE_congr m m' _ hH]
      exact hb2
    · rw [hH, hF]
      exact hb5
    · rw [GET_ALLOC_congr m m' _ hH]
      exact hb6

/-- The epilogue check only reads the word at `p - 4`. -/
theorem epiOk_frame (m m' : Mem) (brk p : Nat) (hep : epiOk m brk p = true)
    (hag : ∀ i, i < 4 → m' (p - 4 + i) = m (p - 4 + i)) :
    epiOk m' brk p = true := by
  have hH : GET m' (HEADER p) = GET m (HEADER p) := GET_congr _ _ _ hag
  simp only [epiOk, Bool.and_eq_true, beq_iff_eq, and_assoc] at hep ⊢
  obtain ⟨h1, h2, h3⟩ := hep
  refine ⟨h1, ?_, ?_⟩
  · rw [GET_SIZE_congr m m' _ hH]
    exact h2
  · rw [GET_ALLOC_congr m m' _ hH]
    exact h3

/-- Finer frame rule: the chain survives any writes that avoid every listed
block's header and footer words (e.g. writes inside payloads). -/
theorem chainBlocks_frame_meta (m m' : Mem) (p : Nat) (bs : List (Nat × Nat × Nat))
    (hch : chainBlocks m p bs = true)
    (hag : ∀ b ∈ bs, (∀ i, i < 4 → m' (b.1 - 4 + i) = m (b.1 - 4 + i)) ∧
      (∀ i, i < 4 → m' (b.1 + b.2.1 - 8 + i) = m (b.1 + b.2.1 - 8 + i))) :
    chainBlocks m' p bs = true := by
  induction bs generalizing p with
  | nil => rfl
  | cons b bs ih =>
    obtain ⟨b1, b2, b3⟩ := b
    rw [chainBlocks_cons] at hch ⊢
    obtain ⟨hb, hch2⟩ := hch
    rw [blockOk_spec] at hb
    dsimp only at hb hch2 ⊢
    obtain ⟨hb1, hb2, hb3, hb4, hb5, hb6⟩ := hb
    subst hb1
    obtain ⟨hagH, hagF⟩ := hag (b1, b2, b3) (List.mem_cons_self _ _)
    dsimp only at hagH hagF
    have hH : GET m' (HEADER b1) = GET m (HEADER b1) := GET_congr _ _ _ hagH
    have hF : GET m' (b1 + b2 - 8) = GET m (b1 + b2 - 8) := GET_congr _ _ _ hagF
    refine ⟨?_, ih (b1 + b2) hch2 (fun c hc => hag c (List.mem_cons_of_mem _ hc))⟩
    rw [blockOk_spec]
    dsimp only
    refine ⟨rfl, ?_, hb3, hb4, ?_, ?_⟩
    · rw [GET_SIZE_congr m m' _ hH]
      exact hb2
    · rw [hH, hF]
      exact hb5
    · rw [GET_ALLOC_congr m m' _ hH]
      exact hb6

/-- Splitting a valid chain at a listed block: the block starts exactly at the
end of the prefix, blocks of the prefix end at or before it, and blocks of
the suffix start at or after its end. -/
theorem chain_split_bounds (m : Mem) (p : Nat) (xs ys : List (Nat × Nat × Nat))
    (b : Nat × Nat × Nat) (hch : chainBlocks m p (xs ++ b :: ys) = true) :
    b.1 = endPos p xs ∧
      (∀ c ∈ xs, p ≤ c.1 ∧ c.1 + c.2.1 ≤ b.1) ∧
      (∀ c ∈ ys, b.1 + b.2.1 ≤ c.1 ∧ c.1 + c.2.1 ≤ endPos p (xs ++ b :: ys)) := by
  rw [chainBlocks_append] at hch
  obtain ⟨hxs, hrest⟩ := hch
  rw [chainBlocks_cons] at hrest
  obtain ⟨hb, hys⟩ := hrest
  have hb1 : b.1 = endPos p xs := (blockOk_spec _ _ _).mp hb |>.1
  refine ⟨hb1, ?_, ?_⟩
  · intro c hc
    obtain ⟨c1, c2, c3⟩ := c
    dsimp only
    obtain ⟨_, _, _, _, _, h6, h7, _⟩ := chain_mem m p xs c1 c2 c3 hxs hc
    exact ⟨h6, by omega⟩
  · intro c hc
    obtain ⟨c1, c2, c3⟩ := c
    dsimp only
    obtain ⟨_, _, _, _, _, h6, h7, _⟩ := chain_mem m (endPos p xs + b.2.1) ys c1 c2 c3 hys hc
    have he : endPos p (xs ++ b :: ys) = endPos (endPos p xs + b.2.1) ys := by
      rw [endPos_append]
      rfl
    refine ⟨by omega, by omega⟩

/-! ## Unpacking the wellformedness predicates -/

theorem WfCore_spec (s : MMState) (bs : List (Nat × Nat × Nat))
    (hwf : WfCore s bs = true) :
    s.heap_listp = 8 ∧ s.brk % 8 = 0 ∧ s.brk < 2 ^ 31 ∧ s.cap < 2 ^ 31 ∧
      (∃ tl, bs = (8, 8, 1) :: tl) ∧ chainBlocks s.mem 8 bs = true ∧
      epiOk s.mem s.brk (endPos 8 bs) = true := by
  simp only [WfCore, Bool.and_eq_true, beq_iff_eq, decide_eq_true_eq, and_assoc] at hwf
  obtain ⟨h1, h2, h3, h4, h5, h6, h7⟩ := hwf
  refine ⟨h1, h2, h3, h4, ?_, h6, h7⟩
  match bs, h5 with
  | (8, 8, 1) :: tl, _ => exact ⟨tl, rfl⟩

theorem WfState_spec (s : MMState) (bs : List (Nat × Nat × Nat))
    (hwf : WfState s bs = true) :
    WfCore s bs = true ∧ ∃ b ∈ bs, b.1 = s.next_fit_pointer := by
  simp only [WfState, Bool.and_eq_true, List.any_eq_true, beq_iff_eq] at hwf
  exact ⟨hwf.1, hwf.2⟩

/-- Build `WfCore` back from its parts. -/
theorem WfCore_intro (s : MMState) (tl : List (Nat × Nat × Nat))
    (h1 : s.heap_listp = 8) (h2 : s.brk % 8 = 0) (h3 : s.brk < 2 ^ 31)
    (h4 : s.cap < 2 ^ 31) (h6 : chainBlocks s.mem 8 ((8, 8, 1) :: tl) = true)
    (h7 : epiOk s.mem s.brk (endPos 8 ((8, 8, 1) :: tl)) = true) :
    WfCore s ((8, 8, 1) :: tl) = true := by
  simp only [WfCore, Bool.and_eq_true, beq_iff_eq, decide_eq_true_eq, and_assoc]
  refine ⟨h1, h2, h3, h4, ?_, h6, h7⟩
  trivial

/-! ## What the next-fit search guarantees -/

/-- Stepping from a listed block by its size lands either on the next listed
block or on the epilogue. -/
theorem chain_next (m : Mem) (brk : Nat) (bs : List (Nat × Nat × Nat))
    (bp sz al : Nat)
    (hch : chainBlocks m 8 bs = true) (hep : epiOk m brk (endPos 8 bs) = true)
    (hmem : (bp, sz, al) ∈ bs) :
    (∃ sz2 al2, (bp + sz, sz2, al2) ∈ bs ∧ GET_SIZE m (HEADER (bp + sz)) = sz2 ∧ 8 ≤ sz2) ∨
      (bp + sz = brk ∧ GET_SIZE m (HEADER (bp + sz)) = 0) := by
  obtain ⟨xs, ys, hsplit⟩ := List.append_of_mem hmem
  subst hsplit
  have hsp := chain_split_bounds m 8 xs ys (bp, sz, al) hch
  have hb1 : bp = endPos 8 xs := hsp.1
  rw [chainBlocks_append] at hch
  obtain ⟨hxs, hrest⟩ := hch
  rw [chainBlocks_cons] at hrest
  obtain ⟨hb, hys⟩ := hrest
  dsimp only at hys
  cases ys with
  | nil =>
    right
    have hend : endPos 8 (xs ++ [(bp, sz, al)]) = endPos 8 xs + sz := by
      rw [endPos_append]
      rfl
    simp only [epiOk, Bool.and_eq_true, beq_iff_eq, and_assoc] at hep
    rw [hend, ← hb1] at hep
    exact ⟨hep.1, hep.2.1⟩
  | cons c ys' =>
    left
    rw [chainBlocks_cons] at hys
    obtain ⟨hc, _⟩ := hys
    rw [blockOk_spec] at hc
    obtain ⟨hc1, hc2, _, hc4, _, hc6⟩ := hc
    rw [← hb1] at hc1 hc2
    obtain ⟨c1, c2, c3⟩ := c
    dsimp only at hc1 hc2 hc4 hc6
    subst hc1
    refine ⟨c2, c3, ?_, hc2, hc4⟩
    exact List.mem_append_right _ (List.mem_cons_of_mem _ (List.mem_cons_self _ _))

/-- On a hit, the next-fit loop only moves the cursor, and the hit is a free
listed block large enough for the request. -/
theorem findLoop_spec (s : MMState) (bs : List (Nat × Nat × Nat)) (asize : Nat)
    (hwf : WfCore s bs = true) :
    ∀ fuel bp sz al, (bp, sz, al) ∈ bs →
      ∀ s1 r, findLoop s asize bp fuel = (s1, some r) →
        s1 = { s with next_fit_pointer := r } ∧
          ∃ rsz, (r, rsz, 0) ∈ bs ∧ asize ≤ rsz := by
  obtain ⟨hlp, _, _, _, ⟨tl, htl⟩, hch, hep⟩ := WfCore_spec s bs hwf
  intro fuel
  induction fuel with
  | zero => intro bp sz al hmem s1 r h; cases h
  | succ n ih =>
    intro bp sz al hmem s1 r h
    obtain ⟨hsz, _, _, _, hal, _, _, _⟩ := chain_mem s.mem 8 bs bp sz al hch hmem
    unfold findLoop at h
    by_cases hhit : GET_ALLOC s.mem (HEADER bp) = 0 ∧ asize ≤ GET_SIZE s.mem (HEADER bp)
    · rw [if_pos hhit] at h
      injection h with h1 h2
      injection h2 with h3
      subst h3
      subst h1
      refine ⟨rfl, sz, ?_, by omega⟩
      have hal0 : al = 0 := by omega
      rw [← hal0]
      exact hmem
    · rw [if_neg hhit] at h
      dsimp only at h
      have hA : NEXT_BLOCK s.mem bp = bp + sz := by
        show bp + GET_SIZE s.mem (bp - WSIZE) = bp + sz
        have : bp - WSIZE = HEADER bp := rfl
        rw [this, hsz]
      rw [hA] at h
      rcases chain_next s.mem s.brk bs bp sz al hch hep hmem with
        ⟨sz2, al2, hmem2, hsz2, hge⟩ | ⟨hbrk, hsz0⟩
      · rw [hsz2] at h
        have hne : ¬ (sz2 = 0) := by omega
        rw [if_neg hne] at h
        by_cases hcyc : bp + sz = s.next_fit_pointer
        · rw [if_pos hcyc] at h
          exact absurd h (by simp)
        · rw [if_neg hcyc] at h
          exact ih (bp + sz) sz2 al2 hmem2 s1 r h
      · rw [hsz0] at h
        rw [if_pos rfl] at h
        rw [hlp] at h
        by_cases hcyc : (8 : Nat) = s.next_fit_pointer
        · rw [if_pos hcyc] at h
          exact absurd h (by simp)
        · rw [if_neg hcyc] at h
          refine ih 8 8 1 ?_ s1 r h
          rw [htl]
          exact List.mem_cons_self _ _

/-- `find_fit` on a wellformed heap: a hit only moves the cursor, and returns
a free listed block of at least the requested size. -/
theorem find_fit_spec (s : MMState) (bs : List (Nat × Nat × Nat)) (asize : Nat)
    (hwf : WfState s bs = true) :
    ∀ s1 r, find_fit s asize = (s1, some r) →
      s1 = { s with next_fit_pointer := r } ∧
        ∃ rsz, (r, rsz, 0) ∈ bs ∧ asize ≤ rsz := by
  obtain ⟨hcore, b, hbmem, hb1⟩ := WfState_spec s bs hwf
  intro s1 r h
  obtain ⟨b1, b2, b3⟩ := b
  dsimp only at hb1
  subst hb1
  unfold find_fit at h
  exact findLoop_spec s bs asize hcore (s.brk + 1) s.next_fit_pointer b2 b3 hbmem s1 r h

/-! ## Small helpers for the surgery proofs -/

theorem sub64_of_le (a b : Nat) (hb : b ≤ a) (ha : a < 2 ^ 64) : sub64 a b = a - b := by
  unfold sub64
  have h1 : a + 2 ^ 64 - b = (a - b) + 2 ^ 64 := by omega
  rw [h1, Nat.add_mod_right]
  omega

theorem sub64_of_lt (a b : Nat) (hab : a < b) (hb : b ≤ 2 ^ 64) : sub64 a b = 2 ^ 64 - (b - a) := by
  unfold sub64
  have h1 : a + 2 ^ 64 - b = 2 ^ 64 - (b - a) := by omega
  rw [h1]
  omega

theorem epiOk_spec (m : Mem) (brk p : Nat) :
    epiOk m brk p = true ↔
      p = brk ∧ GET_SIZE m (HEADER p) = 0 ∧ GET_ALLOC m (HEADER p) = 1 := by
  simp [epiOk, and_assoc]

theorem epiOk_agree (m m' : Mem) (brk E lo hi : Nat) (hep : epiOk m brk E = true)
    (hag : AgreeOutside m m' lo hi) (hhi : hi ≤ E - 4) :
    epiOk m' brk E = true := by
  refine epiOk_frame m m' brk E hep (fun i hi4 => hag _ (Or.inr ?_))
  omega

/-- `coalesce` only ever changes the memory and the next-fit cursor. -/
theorem coalesce_shape (s : MMState) (bp : Nat) :
    (coalesce s bp).1.brk = s.brk ∧ (coalesce s bp).1.cap = s.cap ∧
      (coalesce s bp).1.heap_listp = s.heap_listp := by
  unfold coalesce
  by_cases h : GET_ALLOC s.mem (FOOTER s.mem (PREVIOUS_BLOCK s.mem bp)) ≠ 0 ∧
      GET_ALLOC s.mem (HEADER (NEXT_BLOCK s.mem bp)) ≠ 0
  · rw [if_pos h]
    exact ⟨rfl, rfl, rfl⟩
  · rw [if_neg h]
    exact ⟨rfl, rfl, rfl⟩

/-- Retiling: replace a consecutive run `mid` of a valid chain by new blocks
`newmid` occupying exactly the same span, touching only that span's bytes. -/
theorem chain_retile (m m' : Mem) (xs mid newmid ys : List (Nat × Nat × Nat))
    (hch : chainBlocks m 8 (xs ++ (mid ++ ys)) = true)
    (hag : AgreeOutside m m' (endPos 8 xs - 4) (endPos (endPos 8 xs) mid - 4))
    (hnew : chainBlocks m' (endPos 8 xs) newmid = true)
    (hend : endPos (endPos 8 xs) newmid = endPos (endPos 8 xs) mid) :
    chainBlocks m' 8 (xs ++ (newmid ++ ys)) = true ∧
      endPos 8 (xs ++ (newmid ++ ys)) = endPos 8 (xs ++ (mid ++ ys)) := by
  have hxs8 : 8 ≤ endPos 8 xs := endPos_le 8 xs
  have hmid : endPos 8 xs ≤ endPos (endPos 8 xs) mid := endPos_le _ _
  rw [chainBlocks_append] at hch
  obtain ⟨hxs, hrest⟩ := hch
  rw [chainBlocks_append] at hrest
  obtain ⟨hmidch, hys⟩ := hrest
  have hxs' : chainBlocks m' 8 xs = true := by
    refine chainBlocks_frame m m' 8 xs hxs (fun a h1 h2 => hag a (Or.inl ?_))
    omega
  have hys' : chainBlocks m' (endPos (endPos 8 xs) mid) ys = true := by
    refine chainBlocks_frame m m' _ ys hys (fun a h1 h2 => hag a (Or.inr ?_))
    omega
  constructor
  · rw [chainBlocks_append]
    refine ⟨hxs', ?_⟩
    rw [chainBlocks_append]
    refine ⟨hnew, ?_⟩
    rw [hend]
    exact hys'
  · rw [endPos_append, endPos_append, endPos_append, endPos_append, hend]

/-- Reading the first word of a double word-write. -/
theorem GET_PP_1 (m : Mem) (a1 v1 a2 v2 : Nat) (h : a1 + 4 ≤ a2 ∨ a2 + 4 ≤ a1) :
    GET (PUT (PUT m a1 v1) a2 v2) a1 = v1 % 2 ^ 32 := by
  rw [GET_PUT_out _ _ _ _ h, GET_PUT]

/-- Reading an untouched word under a double word-write. -/
theorem GET_PP_out (m : Mem) (a1 v1 a2 v2 q : Nat)
    (h1 : q + 4 ≤ a1 ∨ a1 + 4 ≤ q) (h2 : q + 4 ≤ a2 ∨ a2 + 4 ≤ q) :
    GET (PUT (PUT m a1 v1) a2 v2) q = GET m q := by
  rw [GET_PUT_out _ _ _ _ h2, GET_PUT_out _ _ _ _ h1]

/-- The head decomposition of a wellformed heap whose chain is given in
split form: the prefix must carry the prologue. -/
theorem prologue_head (xs ys : List (Nat × Nat × Nat)) (b : Nat × Nat × Nat)
    (tl : List (Nat × Nat × Nat)) (hb : b.2.2 = 0)
    (heq : xs ++ b :: ys = (8, 8, 1) :: tl) :
    ∃ xs', xs = (8, 8, 1) :: xs' := by
  cases xs with
  | nil =>
    simp only [List.nil_append, List.cons.injEq] at heq
    rw [heq.1] at hb
    cases hb
  | cons x xs' =>
    simp only [List.cons_append, List.cons.injEq] at heq
    exact ⟨xs', by rw [heq.1]⟩

/-- `coalesce` when both neighbours are allocated: no change at all. -/
theorem coalesce_case1 (s : MMState) (bp : Nat)
    (hpa : GET_ALLOC s.mem (FOOTER s.mem (PREVIOUS_BLOCK s.mem bp)) ≠ 0)
    (hna : GET_ALLOC s.mem (HEADER (NEXT_BLOCK s.mem bp)) ≠ 0) :
    coalesce s bp = (s, bp) := by
  unfold coalesce
  rw [if_pos ⟨hpa, hna⟩]

/-- `coalesce` when only the next block is free: absorb it to the right. -/
theorem coalesce_case2 (s : MMState) (bp : Nat)
    (hpa : GET_ALLOC s.mem (FOOTER s.mem (PREVIOUS_BLOCK s.mem bp)) ≠ 0)
    (hna : GET_ALLOC s.mem (HEADER (NEXT_BLOCK s.mem bp)) = 0) :
    ∃ nfp, coalesce s bp =
      ({ s with
          mem := SET_BLOCK_DATA s.mem bp
            (GET_SIZE s.mem (HEADER bp) + GET_SIZE s.mem (HEADER (NEXT_BLOCK s.mem bp))) 0,
          next_fit_pointer := nfp }, bp) := by
  unfold coalesce
  rw [if_neg (by simp [hna]), if_pos ⟨hpa, hna⟩]
  exact ⟨_, rfl⟩

/-- `coalesce` when only the previous block is free: absorb to the left. -/
theorem coalesce_case3 (s : MMState) (bp : Nat)
    (hpa : GET_ALLOC s.mem (FOOTER s.mem (PREVIOUS_BLOCK s.mem bp)) = 0)
    (hna : GET_ALLOC s.mem (HEADER (NEXT_BLOCK s.mem bp)) ≠ 0) :
    ∃ nfp, coalesce s bp =
      ({ s with
          mem := SET_BLOCK_DATA s.mem (PREVIOUS_BLOCK s.mem bp)
            (GET_SIZE s.mem (HEADER bp) +
              GET_SIZE s.mem (HEADER (PREVIOUS_BLOCK s.mem bp))) 0,
          next_fit_pointer := nfp }, PREVIOUS_BLOCK s.mem bp) := by
  unfold coalesce
  rw [if_neg (by simp [hpa]), if_neg (by simp [hpa]), if_pos ⟨hpa, hna⟩]
  exact ⟨_, rfl⟩

/-- `coalesce` when both neighbours are free: absorb both. -/
theorem coalesce_case4 (s : MMState) (bp : Nat)
    (hpa : GET_ALLOC s.mem (FOOTER s.mem (PREVIOUS_BLOCK s.mem bp)) = 0)
    (hna : GET_ALLOC s.mem (HEADER (NEXT_BLOCK s.mem bp)) = 0) :
    ∃ nfp, coalesce s bp =
      ({ s with
          mem := SET_BLOCK_DATA s.mem (PREVIOUS_BLOCK s.mem bp)
            (GET_SIZE s.mem (HEADER bp) + GET_SIZE s.mem (HEADER (NEXT_BLOCK s.mem bp)) +
              GET_SIZE s.mem (HEADER (PREVIOUS_BLOCK s.mem bp))) 0,
          next_fit_pointer := nfp }, PREVIOUS_BLOCK s.mem bp) := by
  unfold coalesce
  rw [if_neg (by simp [hpa]), if_neg (by simp [hpa]), if_neg (by simp [hna])]
  exact ⟨_, rfl⟩

/-- A one-block chain from explicit header/footer words. -/
theorem chain_single (m : Mem) (p sz al : Nat)
    (hH : GET m (p - 4) = sz + al) (hF : GET m (p + sz - 8) = sz + al)
    (h8 : sz % 8 = 0) (hge : 8 ≤ sz) (hal : al ≤ 1) :
    chainBlocks m p [(p, sz, al)] = true := by
  have hHd : HEADER p = p - 4 := rfl
  rw [show chainBlocks m p [(p, sz, al)] = (blockOk m p (p, sz, al) && true) from rfl]
  rw [Bool.and_true]
  rw [blockOk_spec]
  dsimp only
  rw [hHd]
  refine ⟨rfl, GET_SIZE_eq m _ sz al hH h8 hal, h8, hge, ?_, GET_ALLOC_eq m _ sz al hH h8 hal⟩
  rw [hF, hH]

theorem chain_cons_of (m : Mem) (p sz al : Nat) (bs : List (Nat × Nat × Nat))
    (h1 : chainBlocks m p [(p, sz, al)] = true)
    (h2 : chainBlocks m (p + sz) bs = true) :
    chainBlocks m p ((p, sz, al) :: bs) = true := by
  rw [chainBlocks_cons] at h1 ⊢
  exact ⟨h1.1, h2⟩

/-- The effect of `place(bp, asize)` on a wellformed heap when `bp` is a free
listed block of size `csize ≥ asize` (the `mm_malloc` use).  The result is
again wellformed: `bp` becomes an allocated block of size at least `asize`
in the same position, every byte below `bp - 4` is untouched, and every
allocated block after `bp` survives with all its bytes intact. -/
theorem place_spec (s : MMState) (xs ys : List (Nat × Nat × Nat)) (bp csz asize : Nat)
    (hcore : WfCore s (xs ++ (bp, csz, 0) :: ys) = true)
    (h8 : asize % 8 = 0) (h16 : 16 ≤ asize) (hle : asize ≤ csz) :
    ∃ nsz bs2,
      WfCore (place s bp asize) (xs ++ (bp, nsz, 1) :: bs2) = true ∧
      asize ≤ nsz ∧
      (place s bp asize).brk = s.brk ∧ (place s bp asize).cap = s.cap ∧
      (∀ a, a + 4 < bp → (place s bp asize).mem a = s.mem a) ∧
      (∀ q sz, (q, sz, 1) ∈ ys → (q, sz, 1) ∈ bs2 ∧
        (∀ a, q - 4 ≤ a → a + 4 < q + sz → (place s bp asize).mem a = s.mem a)) := by
  obtain ⟨hlp, hbrk8, hbrk31, hcap31, ⟨tl, htl⟩, hch, hep⟩ := WfCore_spec _ _ hcore
  obtain ⟨xs', hxs'⟩ := prologue_head xs ys (bp, csz, 0) tl rfl htl
  have hmemb : (bp, csz, 0) ∈ xs ++ (bp, csz, 0) :: ys :=
    List.mem_append_right _ (List.mem_cons_self _ _)
  obtain ⟨hszh, hc8, hc8le, hfootv, hallocv, hbpge, hcszle, hal8⟩ :=
    chain_mem s.mem 8 _ bp csz 0 hch hmemb
  have hE : endPos 8 (xs ++ (bp, csz, 0) :: ys) = s.brk := ((epiOk_spec _ _ _).mp hep).1
  have hcszbrk : bp + csz ≤ s.brk := by rw [← hE]; exact hcszle
  have hsplitb := chain_split_bounds s.mem 8 xs ys (bp, csz, 0) hch
  have hbpend : bp = endPos 8 xs := hsplitb.1
  by_cases hcut : DSIZE + OVERHEAD ≤ sub64 csz asize
  case neg =>
    -- no-split branch: the whole block becomes allocated
    have hres : place s bp asize = { s with mem := SET_BLOCK_DATA s.mem bp csz 1 } := by
      simp only [place, hszh, if_neg hcut]
    have hcszmod : csz % 2 ^ 32 = csz := Nat.mod_eq_of_lt (by omega)
    have hsbd : SET_BLOCK_DATA s.mem bp csz 1 =
        PUT (PUT s.mem (bp - 4) (csz + 1)) (bp + csz - 8) (csz + 1) := by
      rw [SBD_eq s.mem bp csz 1 hc8 (by omega), hcszmod]
    set m' := SET_BLOCK_DATA s.mem bp csz 1 with hm'
    have hag : AgreeOutside s.mem m' (bp - 4) (bp + csz - 4) :=
      SBD_agreeOutside s.mem bp csz 1 hc8 (by omega) hc8le (by omega) (by omega)
    have hH : GET m' (bp - 4) = csz + 1 := by
      rw [hsbd]
      rw [GET_PP_1 _ _ _ _ _ (by omega)]
      omega
    have hF : GET m' (bp + csz - 8) = csz + 1 := by
      rw [hsbd, GET_PUT]
      omega
    have hnew : chainBlocks m' (endPos 8 xs) [(bp, csz, 1)] = true := by
      rw [← hbpend]
      exact chain_single m' bp csz 1 hH hF hc8 hc8le (by omega)
    have hmide : endPos (endPos 8 xs) [(bp, csz, 0)] = bp + csz := by
      rw [← hbpend]; rfl
    have hret := chain_retile s.mem m' xs [(bp, csz, 0)] [(bp, csz, 1)] ys hch
      (by rw [hmide, ← hbpend]; exact hag)
      hnew (by rw [hmide, ← hbpend]; rfl)
    simp only [List.singleton_append] at hret
    refine ⟨csz, ys, ?_, hle, by rw [hres], by rw [hres], ?_, ?_⟩
    · -- WfCore of the result
      rw [hres]
      rw [hxs'] at hret ⊢
      simp only [List.cons_append] at hret ⊢
      refine WfCore_intro _ _ hlp hbrk8 hbrk31 hcap31 hret.1 ?_
      rw [hret.2]
      have hE2 : endPos 8 ((8, 8, 1) :: (xs' ++ (bp, csz, 0) :: ys)) = s.brk := by
        rw [← List.cons_append, ← hxs']
        exact hE
      rw [hxs'] at hep
      simp only [List.cons_append] at hep
      rw [hE2] at hep ⊢
      exact epiOk_agree s.mem m' s.brk s.brk (bp - 4) (bp + csz - 4) hep hag (by omega)
    · intro a ha
      rw [hres]
      exact hag a (Or.inl (by omega))
    · intro q sz hq
      have hqge : bp + csz ≤ q := by
        have := (hsplitb.2.2 (q, sz, 1) hq).1
        dsimp only at this
        exact this
      refine ⟨hq, fun a ha1 ha2 => ?_⟩
      rw [hres]
      exact hag a (Or.inr (by omega))
  case pos =>
    -- split branch
    have hsub : sub64 csz asize = csz - asize := sub64_of_le _ _ hle (by omega)
    have hcut16 : 16 ≤ csz - asize := by
      have hdo : DSIZE + OVERHEAD = 16 := rfl
      omega
    have hamod : asize % 2 ^ 32 = asize := Nat.mod_eq_of_lt (by omega)
    have hrmod : (csz - asize) % 2 ^ 32 = csz - asize := Nat.mod_eq_of_lt (by omega)
    set m1 := SET_BLOCK_DATA s.mem bp asize 1 with hm1def
    have hm1 : m1 = PUT (PUT s.mem (bp - 4) (asize + 1)) (bp + asize - 8) (asize + 1) := by
      rw [hm1def, SBD_eq s.mem bp asize 1 h8 (by omega), hamod]
    have hH1 : GET m1 (bp - 4) = asize + 1 := by
      rw [hm1, GET_PP_1 _ _ _ _ _ (by omega)]
      omega
    have hbp1 : NEXT_BLOCK m1 bp = bp + asize := by
      show bp + GET_SIZE m1 (bp - WSIZE) = bp + asize
      have hw : bp - WSIZE = bp - 4 := rfl
      rw [hw, GET_SIZE_eq m1 _ asize 1 hH1 h8 (by omega)]
    have hF1 : GET m1 (bp + asize - 8) = asize + 1 := by
      rw [hm1, GET_PUT]
      omega
    set rb := bp + asize with hrbdef
    set m2 := SET_BLOCK_DATA m1 rb (sub64 csz asize) 0 with hm2def
    have hm2 : m2 = PUT (PUT m1 (rb - 4) (csz - asize)) (bp + csz - 8) (csz - asize) := by
      rw [hm2def, SBD_eq m1 rb (sub64 csz asize) 0 (by rw [hsub]; omega) (by omega)]
      rw [hsub, hrmod]
      have hfp : rb + (csz - asize) - 8 = bp + csz - 8 := by omega
      rw [hfp, Nat.add_zero]
    have hrb8 : GET m2 (bp + asize - 8) = asize + 1 := by
      rw [hm2, GET_PP_out _ _ _ _ _ _ (by omega) (by omega)]
      exact hF1
    have hH2 : GET m2 (bp - 4) = asize + 1 := by
      rw [hm2, GET_PP_out _ _ _ _ _ _ (by omega) (by omega)]
      exact hH1
    have hhdr_rb : GET m2 (rb - 4) = csz - asize := by
      rw [hm2, GET_PP_1 _ _ _ _ _ (by omega)]
      omega
    have hftr_rb : GET m2 (bp + csz - 8) = csz - asize := by
      rw [hm2, GET_PUT]
      omega
    have hprev : PREVIOUS_BLOCK m2 rb = bp := by
      show rb - GET_SIZE m2 (rb - DSIZE) = bp
      have hw : rb - DSIZE = bp + asize - 8 := by show rb - 8 = _; omega
      rw [hw, GET_SIZE_eq m2 _ asize 1 hrb8 h8 (by omega)]
      omega
    have hfoot2 : FOOTER m2 bp = bp + asize - 8 := by
      show bp + GET_SIZE m2 (HEADER bp) - DSIZE = bp + asize - 8
      have hw : HEADER bp = bp - 4 := rfl
      rw [hw, GET_SIZE_eq m2 _ asize 1 hH2 h8 (by omega)]
      rfl
    have hpa : GET_ALLOC m2 (FOOTER m2 (PREVIOUS_BLOCK m2 rb)) = 1 := by
      rw [hprev, hfoot2]
      exact GET_ALLOC_eq m2 _ asize 1 hrb8 h8 (by omega)
    have hnext_rb : NEXT_BLOCK m2 rb = bp + csz := by
      show rb + GET_SIZE m2 (rb - WSIZE) = bp + csz
      have hw : rb - WSIZE = rb - 4 := rfl
      rw [hw, GET_SIZE_eq m2 _ (csz - asize) 0 (by rw [hhdr_rb]; omega) (by omega) (by omega)]
      omega
    have hsz_rb : GET_SIZE m2 (HEADER rb) = csz - asize := by
      show GET_SIZE m2 (rb - 4) = csz - asize
      exact GET_SIZE_eq m2 _ (csz - asize) 0 (by rw [hhdr_rb]; omega) (by omega) (by omega)
    have hnexthdr : GET m2 (bp + csz - 4) = GET s.mem (bp + csz - 4) := by
      rw [hm2, GET_PP_out _ _ _ _ _ _ (by omega) (by omega), hm1,
        GET_PP_out _ _ _ _ _ _ (by omega) (by omega)]
    have hag2 : AgreeOutside s.mem m2 (bp - 4) (bp + csz - 4) := by
      intro a ha
      rw [hm2, PUT_out _ _ _ _ (by omega), PUT_out _ _ _ _ (by omega), hm1,
        PUT_out _ _ _ _ (by omega), PUT_out _ _ _ _ (by omega)]
    have hres : place s bp asize = (coalesce { s with mem := m2 } rb).1 := by
      simp only [place, hszh, if_pos hcut]
      rw [← hm1def, hbp1, ← hm2def]
    -- the chain of the two new blocks, valid in m2
    have hnewm : chainBlocks m2 bp [(bp, asize, 1), (rb, csz - asize, 0)] = true := by
      refine chain_cons_of m2 bp asize 1 _ (chain_single m2 bp asize 1 hH2 hrb8 h8 (by omega)
        (by omega)) ?_
      have hftr_pos : rb + (csz - asize) - 8 = bp + csz - 8 := by omega
      refine chain_single m2 rb (csz - asize) 0 (by rw [hhdr_rb]; omega) ?_ (by omega) (by omega)
        (by omega)
      rw [hftr_pos, hftr_rb]
      omega
    have hmide : endPos (endPos 8 xs) [(bp, csz, 0)] = bp + csz := by
      rw [← hbpend]; rfl
    -- the next block (or epilogue) after bp's block determines coalesce's case
    rcases ys with _ | ⟨⟨c1, c2, c3⟩, ys2⟩
    · -- next is the epilogue: coalesce does nothing (case 1)
      have hepi := (epiOk_spec _ _ _).mp hep
      have hepiE : endPos 8 (xs ++ [(bp, csz, 0)]) = bp + csz := by
        rw [endPos_append, ← hbpend]
        rfl
      have hna : GET_ALLOC m2 (HEADER (NEXT_BLOCK m2 rb)) = 1 := by
        rw [hnext_rb]
        show GET_ALLOC m2 (bp + csz - 4) = 1
        rw [GET_ALLOC_congr s.mem m2 _ hnexthdr]
        have h22 := hepi.2.2
        rw [hepiE] at h22
        exact h22
      have hcoal := coalesce_case1 { s with mem := m2 } rb
        (show GET_ALLOC m2 (FOOTER m2 (PREVIOUS_BLOCK m2 rb)) ≠ 0 by rw [hpa]; exact one_ne_zero)
        (show GET_ALLOC m2 (HEADER (NEXT_BLOCK m2 rb)) ≠ 0 by rw [hna]; exact one_ne_zero)
      have hres2 : place s bp asize = { s with mem := m2 } := by
        rw [hres, hcoal]
      have hret := chain_retile s.mem m2 xs [(bp, csz, 0)]
        [(bp, asize, 1), (rb, csz - asize, 0)] [] hch
        (by rw [hmide, ← hbpend]; exact hag2)
        (by rw [← hbpend]; exact hnewm)
        (by rw [hmide, ← hbpend]; show rb + (csz - asize) = bp + csz; omega)
      simp only [List.append_nil] at hret
      refine ⟨asize, [(rb, csz - asize, 0)], ?_, Nat.le_refl _, by rw [hres2], by rw [hres2],
        ?_, ?_⟩
      · rw [hres2]
        rw [hxs'] at hret ⊢
        simp only [List.cons_append] at hret ⊢
        refine WfCore_intro _ _ hlp hbrk8 hbrk31 hcap31 hret.1 ?_
        rw [hret.2]
        have hE2 : endPos 8 ((8, 8, 1) :: (xs' ++ [(bp, csz, 0)])) = s.brk := by
          rw [← List.cons_append, ← hxs']
          exact hE
        rw [hxs'] at hep
        simp only [List.cons_append] at hep
        rw [hE2] at hep ⊢
        exact epiOk_agree s.mem m2 s.brk s.brk (bp - 4) (bp + csz - 4) hep hag2 (by omega)
      · intro a ha
        rw [hres2]
        exact hag2 a (Or.inl (by omega))
      · intro q sz hq
        cases hq
    · -- there is a real block after bp's block
      have hchsplit := hch
      rw [chainBlocks_append] at hchsplit
      obtain ⟨hxsch, hrest⟩ := hchsplit
      rw [chainBlocks_cons] at hrest
      obtain ⟨hbOk, hysch⟩ := hrest
      dsimp only at hysch
      rw [chainBlocks_cons] at hysch
      obtain ⟨hcOk, hys2ch⟩ := hysch
      rw [blockOk_spec] at hcOk
      dsimp only at hcOk hys2ch
      obtain ⟨hc1, hcsz2, hc28, hc2ge, hc2f, hc2al⟩ := hcOk
      have hc1v : c1 = bp + csz := by rw [hc1, ← hbpend]
      subst hc1v
      have hpos : endPos 8 xs + csz = bp + csz := by rw [← hbpend]
      rw [hpos] at hcsz2 hc2f hc2al hys2ch
      have hcmem : (bp + csz, c2, c3) ∈ xs ++ (bp, csz, 0) :: (bp + csz, c2, c3) :: ys2 :=
        List.mem_append_right _ (List.mem_cons_of_mem _ (List.mem_cons_self _ _))
      obtain ⟨_, _, _, _, _, _, hc2le, _⟩ := chain_mem s.mem 8 _ (bp + csz) c2 c3 hch hcmem
      have hc2brk : bp + csz + c2 ≤ s.brk := by rw [← hE]; exact hc2le
      have hc3lt : c3 < 2 := by
        rw [← hc2al]
        exact Nat.mod_lt _ (by omega)
      have hnac : GET_ALLOC m2 (HEADER (NEXT_BLOCK m2 rb)) = c3 := by
        rw [hnext_rb]
        show GET_ALLOC m2 (bp + csz - 4) = c3
        rw [GET_ALLOC_congr s.mem m2 _ hnexthdr]
        exact hc2al
      by_cases hc30 : c3 = 0
      · -- next block free: coalesce case 2 merges the residual with it
        subst hc30
        obtain ⟨nfp, hcoal⟩ := coalesce_case2 { s with mem := m2 } rb
          (show GET_ALLOC m2 (FOOTER m2 (PREVIOUS_BLOCK m2 rb)) ≠ 0 by
            rw [hpa]; exact one_ne_zero)
          (show GET_ALLOC m2 (HEADER (NEXT_BLOCK m2 rb)) = 0 from hnac)
        dsimp only at hcoal
        have hnsz : GET_SIZE m2 (HEADER (NEXT_BLOCK m2 rb)) = c2 := by
          rw [hnext_rb]
          show GET_SIZE m2 (bp + csz - 4) = c2
          rw [GET_SIZE_congr s.mem m2 _ hnexthdr]
          exact hcsz2
        rw [hsz_rb, hnsz] at hcoal
        set m3 := SET_BLOCK_DATA m2 rb (csz - asize + c2) 0 with hm3def
        have hnewsum : (csz - asize + c2) % 2 ^ 32 = csz - asize + c2 :=
          Nat.mod_eq_of_lt (by omega)
        have hm3 : m3 = PUT (PUT m2 (rb - 4) (csz - asize + c2))
            (bp + csz + c2 - 8) (csz - asize + c2) := by
          rw [hm3def, SBD_eq m2 rb (csz - asize + c2) 0 (by omega) (by omega), hnewsum]
          have hfp : rb + (csz - asize + c2) - 8 = bp + csz + c2 - 8 := by omega
          rw [hfp, Nat.add_zero]
        have hres3 : place s bp asize = { s with mem := m3, next_fit_pointer := nfp } := by
          rw [hres, hcoal]
        -- the two new blocks in m3
        have hH3 : GET m3 (bp - 4) = asize + 1 := by
          rw [hm3, GET_PP_out _ _ _ _ _ _ (by omega) (by omega)]
          exact hH2
        have hF3 : GET m3 (bp + asize - 8) = asize + 1 := by
          rw [hm3, GET_PP_out _ _ _ _ _ _ (by omega) (by omega)]
          exact hrb8
        have hH3r : GET m3 (rb - 4) = csz - asize + c2 := by
          rw [hm3, GET_PP_1 _ _ _ _ _ (by omega)]
          omega
        have hF3r : GET m3 (rb + (csz - asize + c2) - 8) = csz - asize + c2 := by
          have hfp : rb + (csz - asize + c2) - 8 = bp + csz + c2 - 8 := by omega
          rw [hfp, hm3, GET_PUT]
          omega
        have hnewm3 : chainBlocks m3 bp [(bp, asize, 1), (rb, csz - asize + c2, 0)] = true := by
          refine chain_cons_of m3 bp asize 1 _
            (chain_single m3 bp asize 1 hH3 hF3 h8 (by omega) (by omega)) ?_
          refine chain_single m3 rb (csz - asize + c2) 0 (by rw [hH3r]; omega) (by rw [hF3r]; omega)
            (by omega) (by omega) (by omega)
        have hag3 : AgreeOutside s.mem m3 (bp - 4) (bp + csz + c2 - 4) := by
          intro a ha
          rw [hm3, PUT_out _ _ _ _ (by omega), PUT_out _ _ _ _ (by omega)]
          exact hag2 a (by omega)
        have hmide2 : endPos (endPos 8 xs) [(bp, csz, 0), (bp + csz, c2, 0)] =
            bp + csz + c2 := by
          rw [← hbpend]
          rfl
        have hret := chain_retile s.mem m3 xs [(bp, csz, 0), (bp + csz, c2, 0)]
          [(bp, asize, 1), (rb, csz - asize + c2, 0)] ys2 hch
          (by rw [hmide2, ← hbpend]; exact hag3)
          (by rw [← hbpend]; exact hnewm3)
          (by rw [hmide2, ← hbpend]; show rb + (csz - asize + c2) = bp + csz + c2; omega)
        simp only [List.cons_append, List.nil_append] at hret
        refine ⟨asize, (rb, csz - asize + c2, 0) :: ys2, ?_, Nat.le_refl _, by rw [hres3],
          by rw [hres3], ?_, ?_⟩
        · rw [hres3]
          rw [hxs'] at hret ⊢
          simp only [List.cons_append] at hret ⊢
          refine WfCore_intro _ _ hlp hbrk8 hbrk31 hcap31 hret.1 ?_
          rw [hret.2]
          have hE2 : endPos 8 ((8, 8, 1) :: (xs' ++ (bp, csz, 0) :: (bp + csz, c2, 0) :: ys2)) =
              s.brk := by
            rw [← List.cons_append, ← hxs']
            exact hE
          rw [hxs'] at hep
          simp only [List.cons_append] at hep
          rw [hE2] at hep ⊢
          exact epiOk_agree s.mem m3 s.brk s.brk (bp - 4) (bp + csz + c2 - 4) hep hag3
            (by omega)
        · intro a ha
          rw [hres3]
          exact hag3 a (Or.inl (by omega))
        · intro q sz hq
          rcases List.mem_cons.mp hq with heq | hq2
          · injection heq with he1 he23
            injection he23 with he2 he3
            cases he3
          · obtain ⟨_, _, _, _, _, hqge, _, _⟩ :=
              chain_mem s.mem (bp + csz + c2) ys2 q sz 1 hys2ch hq2
            refine ⟨List.mem_cons_of_mem _ hq2, fun a ha1 ha2 => ?_⟩
            rw [hres3]
            exact hag3 a (Or.inr (by omega))
      · -- next block allocated: coalesce case 1, the split stands
        have hc31 : c3 = 1 := by omega
        subst hc31
        have hcoal := coalesce_case1 { s with mem := m2 } rb
          (show GET_ALLOC m2 (FOOTER m2 (PREVIOUS_BLOCK m2 rb)) ≠ 0 by
            rw [hpa]; exact one_ne_zero)
          (show GET_ALLOC m2 (HEADER (NEXT_BLOCK m2 rb)) ≠ 0 by rw [hnac]; exact one_ne_zero)
        have hres2 : place s bp asize = { s with mem := m2 } := by
          rw [hres, hcoal]
        have hret := chain_retile s.mem m2 xs [(bp, csz, 0)]
          [(bp, asize, 1), (rb, csz - asize, 0)] ((bp + csz, c2, 1) :: ys2) hch
          (by rw [hmide, ← hbpend]; exact hag2)
          (by rw [← hbpend]; exact hnewm)
          (by rw [hmide, ← hbpend]; show rb + (csz - asize) = bp + csz; omega)
        simp only [List.cons_append, List.nil_append, List.singleton_append] at hret
        refine ⟨asize, (rb, csz - asize, 0) :: (bp + csz, c2, 1) :: ys2, ?_, Nat.le_refl _,
          by rw [hres2], by rw [hres2], ?_, ?_⟩
        · rw [hres2]
          rw [hxs'] at hret ⊢
          simp only [List.cons_append] at hret ⊢
          refine WfCore_intro _ _ hlp hbrk8 hbrk31 hcap31 hret.1 ?_
          rw [hret.2]
          have hE2 : endPos 8 ((8, 8, 1) :: (xs' ++ (bp, csz, 0) :: (bp + csz, c2, 1) :: ys2)) =
              s.brk := by
            rw [← List.cons_append, ← hxs']
            exact hE
          rw [hxs'] at hep
          simp only [List.cons_append] at hep
          rw [hE2] at hep ⊢
          exact epiOk_agree s.mem m2 s.brk s.brk (bp - 4) (bp + csz - 4) hep hag2 (by omega)
        · intro a ha
          rw [hres2]
          exact hag2 a (Or.inl (by omega))
        · intro q sz hq
          rcases List.mem_cons.mp hq with heq | hq2
          · injection heq with he1 he23
            injection he23 with he2 he3
            subst he1; subst he2
            refine ⟨List.mem_cons_of_mem _ (List.mem_cons_self _ _), fun a ha1 ha2 => ?_⟩
            rw [hres2]
            exact hag2 a (Or.inr (by omega))
          · obtain ⟨_, _, _, _, _, hqge, _, _⟩ :=
              chain_mem s.mem (bp + csz + c2) ys2 q sz 1 hys2ch hq2
            refine ⟨List.mem_cons_of_mem _ (List.mem_cons_of_mem _ hq2),
              fun a ha1 ha2 => ?_⟩
            rw [hres2]
            exact hag2 a (Or.inr (by omega))

/-- The wellformedness core ignores the next-fit cursor. -/
theorem WfCore_nfp (s : MMState) (x : Nat) (bs : List (Nat × Nat × Nat)) :
    WfCore { s with next_fit_pointer := x } bs = WfCore s bs := rfl

/-- A payload position determines its block: listed blocks have distinct
positions, so two list entries at the same position agree. -/
theorem chain_mem_unique (m : Mem) (p : Nat) (bs : List (Nat × Nat × Nat))
    (q sz1 al1 sz2 al2 : Nat) (hch : chainBlocks m p bs = true)
    (h1 : (q, sz1, al1) ∈ bs) (h2 : (q, sz2, al2) ∈ bs) :
    sz1 = sz2 ∧ al1 = al2 := by
  obtain ⟨_, _, _, _, _, _, _, _⟩ := chain_mem m p bs q sz1 al1 hch h1
  obtain ⟨_, hsz28, hsz2, _, _, _, _, _⟩ := chain_mem m p bs q sz2 al2 hch h2
  obtain ⟨xs, ys, hsplit⟩ := List.append_of_mem h1
  subst hsplit
  have hb := chain_split_bounds m p xs ys (q, sz1, al1) hch
  rcases List.mem_append.mp h2 with hx | hy
  · have := (hb.2.1 (q, sz2, al2) hx).2
    dsimp only at this
    omega
  · rcases List.mem_cons.mp hy with heq | hy2
    · injection heq with e1 e23
      injection e23 with e2 e3
      exact ⟨e2.symm, e3.symm⟩
    · have := (hb.2.2 (q, sz2, al2) hy2).1
      dsimp only at this
      obtain ⟨_, _, hsz1, _⟩ := chain_mem m p (xs ++ (q, sz1, al1) :: ys) q sz1 al1 hch h1
      omega

/-- Two listed blocks at different positions occupy disjoint extents. -/
theorem chain_disjoint (m : Mem) (p : Nat) (bs : List (Nat × Nat × Nat))
    (q1 sz1 a1 q2 sz2 a2 : Nat) (hch : chainBlocks m p bs = true)
    (h1 : (q1, sz1, a1) ∈ bs) (h2 : (q2, sz2, a2) ∈ bs) (hne : q1 ≠ q2) :
    q1 + sz1 ≤ q2 ∨ q2 + sz2 ≤ q1 := by
  obtain ⟨xs, ys, hsplit⟩ := List.append_of_mem h1
  subst hsplit
  have hb := chain_split_bounds m p xs ys (q1, sz1, a1) hch
  rcases List.mem_append.mp h2 with hx | hy
  · have := (hb.2.1 (q2, sz2, a2) hx).2
    dsimp only at this
    exact Or.inr this
  · rcases List.mem_cons.mp hy with heq | hy2
    · injection heq with e1 e23
      exact absurd e1.symm hne
    · have := (hb.2.2 (q2, sz2, a2) hy2).1
      dsimp only at this
      exact Or.inl this

/-- The adjusted request size is aligned, at least the minimum block size,
covers the request plus overhead, and stays below `2^31` for bounded
requests. -/
theorem adjustedSize_facts (n : Nat) (h0 : 0 < n) (hn : n ≤ 2 ^ 31 - 16) :
    adjustedSize n % 8 = 0 ∧ 16 ≤ adjustedSize n ∧ n + 8 ≤ adjustedSize n ∧
      adjustedSize n < 2 ^ 31 := by
  unfold adjustedSize
  by_cases h : n ≤ DSIZE
  · rw [if_pos h]
    have h8 : n ≤ 8 := h
    refine ⟨by decide, by decide, by show n + 8 ≤ 16; omega, by decide⟩
  · rw [if_neg h]
    have hD : ¬ (n ≤ 8) := h
    have hmod : (n + OVERHEAD + (DSIZE - 1)) % 2 ^ 32 = n + 15 := by
      show (n + 8 + 7) % 2 ^ 32 = n + 15
      have : n + 8 + 7 = n + 15 := by omega
      rw [this]
      exact Nat.mod_eq_of_lt (by omega)
    rw [hmod]
    show DSIZE * ((n + 15) / 8) % 8 = 0 ∧ 16 ≤ DSIZE * ((n + 15) / 8) ∧
      n + 8 ≤ DSIZE * ((n + 15) / 8) ∧ DSIZE * ((n + 15) / 8) < 2 ^ 31
    have hDv : DSIZE = 8 := rfl
    rw [hDv]
    omega

/-- `memcpy` writes only to `[dst, dst + k)`. -/
theorem memcpy_out (k : Nat) : ∀ (m : Mem) (dst src a : Nat),
    a < dst ∨ dst + k ≤ a → memcpy m dst src k a = m a := by
  induction k with
  | zero => intro m dst src a _; rfl
  | succ k ih =>
    intro m dst src a ha
    show memcpy (writeByte m dst (m src)) (dst + 1) (src + 1) k a = m a
    rw [ih _ _ _ _ (by omega)]
    exact writeByte_out m dst (m src) a (by omega)

/-- When source and destination ranges are disjoint, byte `i` of the copy
holds the original source byte. -/
theorem memcpy_get (k : Nat) : ∀ (m : Mem) (dst src : Nat),
    (dst + k ≤ src ∨ src + k ≤ dst) → ∀ i, i < k →
      memcpy m dst src k (dst + i) = m (src + i) := by
  induction k with
  | zero => intro m dst src _ i hi; omega
  | succ k ih =>
    intro m dst src hd i hi
    show memcpy (writeByte m dst (m src)) (dst + 1) (src + 1) k (dst + i) = m (src + i)
    cases i with
    | zero =>
      rw [memcpy_out k _ _ _ _ (by omega)]
      show writeByte m dst (m src) dst = m src
      exact writeByte_at m dst (m src)
    | succ j =>
      have h1 : dst + (j + 1) = (dst + 1) + j := by omega
      rw [h1, ih _ _ _ (by omega) j (by omega)]
      have h2 : (src + 1) + j = src + (j + 1) := by omega
      rw [h2]
      exact writeByte_out m dst (m src) _ (by omega)

/-- The epilogue header word. -/
theorem PACK_zero_one : PACK 0 1 = 1 := by decide
set_option maxHeartbeats 2000000

/-- The effect of a successful `extend_heap` on a wellformed heap: the break
advances by the requested bytes, the returned pointer is a free block ending
exactly at the new break (either the fresh extension block, or the last block
absorbing it when that block was free), the heap stays wellformed, and every
allocated block survives with all its bytes intact. -/
theorem extend_heap_spec (s : MMState) (bs : List (Nat × Nat × Nat)) (words : Nat)
    (hwf : WfCore s bs = true) (heven : words % 2 = 0) (h16 : 16 ≤ words * WSIZE)
    (hcap : s.brk + words * WSIZE ≤ s.cap) :
    ∃ s1 rp rsz xs1,
      extend_heap s words = (s1, some rp) ∧
      WfCore s1 (xs1 ++ [(rp, rsz, 0)]) = true ∧
      words * WSIZE ≤ rsz ∧
      s1.brk = s.brk + words * WSIZE ∧ s1.cap = s.cap ∧
      rp + rsz = s1.brk ∧
      (∀ q sz, (q, sz, 1) ∈ bs → q ≠ rp ∧ (q, sz, 1) ∈ xs1 ∧
        (∀ a, q - 4 ≤ a → a + 4 < q + sz → s1.mem a = s.mem a)) := by
  obtain ⟨hlp, hbrk8, hbrk31, hcap31, ⟨tl, htl⟩, hch, hep⟩ := WfCore_spec _ _ hwf
  have hesz8 : (words * WSIZE) % 8 = 0 := by
    show (words * 4) % 8 = 0
    omega
  have heszlt : words * WSIZE < 2 ^ 31 := by omega
  have hE : endPos 8 bs = s.brk := ((epiOk_spec _ _ _).mp hep).1
  have hmemP : ((8 : Nat), (8 : Nat), (1 : Nat)) ∈ bs := by
    rw [htl]
    exact List.mem_cons_self _ _
  have hE16 : 16 ≤ s.brk := by
    obtain ⟨_, _, _, _, _, _, h7, _⟩ := chain_mem s.mem 8 bs 8 8 1 hch hmemP
    omega
  have hodd : ¬ (words % 2 = 1) := by omega
  have hsbrk : mem_sbrk s (words * WSIZE) =
      ({ s with brk := s.brk + words * WSIZE }, some s.brk) := by
    unfold mem_sbrk
    rw [if_neg (by omega)]
  set m1 := SET_BLOCK_DATA s.mem s.brk (words * WSIZE) 0 with hm1def
  have hmod : (words * WSIZE) % 2 ^ 32 = words * WSIZE := Nat.mod_eq_of_lt (by omega)
  have hm1 : m1 = PUT (PUT s.mem (s.brk - 4) (words * WSIZE))
      (s.brk + words * WSIZE - 8) (words * WSIZE) := by
    rw [hm1def, SBD_eq s.mem s.brk (words * WSIZE) 0 hesz8 (by omega), hmod]
    simp only [Nat.add_zero]
  have hH1 : GET m1 (s.brk - 4) = words * WSIZE := by
    rw [hm1, GET_PP_1 _ _ _ _ _ (by omega)]
    omega
  have hnb1 : NEXT_BLOCK m1 s.brk = s.brk + words * WSIZE := by
    show s.brk + GET_SIZE m1 (s.brk - WSIZE) = s.brk + words * WSIZE
    have hw : s.brk - WSIZE = s.brk - 4 := rfl
    rw [hw, GET_SIZE_eq m1 _ (words * WSIZE) 0 (by rw [hH1]; omega) hesz8 (by omega)]
  set m2 := PUT m1 (s.brk + words * WSIZE - 4) 1 with hm2def
  have hres : extend_heap s words =
      ((coalesce { s with brk := s.brk + words * WSIZE, mem := m2 } s.brk).1,
        some (coalesce { s with brk := s.brk + words * WSIZE, mem := m2 } s.brk).2) := by
    have hhd : HEADER (s.brk + words * WSIZE) = s.brk + words * WSIZE - 4 := rfl
    have hmm2 : PUT m1 (HEADER (NEXT_BLOCK m1 s.brk)) (PACK 0 1) = m2 := by
      rw [hnb1, PACK_zero_one, hhd, hm2def]
    simp only [extend_heap]
    rw [if_neg hodd, hsbrk]
    show ((coalesce { s with brk := s.brk + words * WSIZE, mem := PUT m1 (HEADER (NEXT_BLOCK m1 s.brk)) (PACK 0 1) } s.brk).1, some (coalesce { s with brk := s.brk + words * WSIZE, mem := PUT m1 (HEADER (NEXT_BLOCK m1 s.brk)) (PACK 0 1) } s.brk).2) = _
    rw [hmm2]
  -- reads on the extended memory
  have hH2 : GET m2 (s.brk - 4) = words * WSIZE := by
    rw [hm2def, GET_PUT_out _ _ _ _ (by omega)]
    exact hH1
  have hF2 : GET m2 (s.brk + words * WSIZE - 8) = words * WSIZE := by
    rw [hm2def, GET_PUT_out _ _ _ _ (by omega), hm1, GET_PUT]
    omega
  have hEpi2 : GET m2 (s.brk + words * WSIZE - 4) = 1 := by
    rw [hm2def, GET_PUT]
    omega
  have hag2 : AgreeOutside s.mem m2 (s.brk - 4) (s.brk + words * WSIZE) := by
    intro a ha
    rw [hm2def, PUT_out _ _ _ _ (by omega), hm1,
      PUT_out _ _ _ _ (by omega), PUT_out _ _ _ _ (by omega)]
  have hszE : GET_SIZE m2 (HEADER s.brk) = words * WSIZE := by
    show GET_SIZE m2 (s.brk - 4) = words * WSIZE
    exact GET_SIZE_eq m2 _ (words * WSIZE) 0 (by rw [hH2]; omega) hesz8 (by omega)
  have hnb2 : NEXT_BLOCK m2 s.brk = s.brk + words * WSIZE := by
    show s.brk + GET_SIZE m2 (s.brk - WSIZE) = s.brk + words * WSIZE
    have hw : s.brk - WSIZE = s.brk - 4 := rfl
    rw [hw]
    show s.brk + GET_SIZE m2 (HEADER s.brk) = _
    rw [hszE]
  have hna : GET_ALLOC m2 (HEADER (NEXT_BLOCK m2 s.brk)) = 1 := by
    rw [hnb2]
    show GET_ALLOC m2 (s.brk + words * WSIZE - 4) = 1
    exact GET_ALLOC_eq m2 _ 0 1 (by rw [hEpi2]) (by omega) (by omega)
  -- the last block of the old chain
  rcases List.eq_nil_or_concat bs with hnil | ⟨init, last, hconcat⟩
  · rw [htl] at hnil
    cases hnil
  obtain ⟨lq, lsz, lal⟩ := last
  rw [List.concat_eq_append] at hconcat
  have hmeml : (lq, lsz, lal) ∈ bs := by
    rw [hconcat]
    exact List.mem_append_right _ (List.mem_cons_self _ _)
  obtain ⟨hlsz, hl8, hl8le, hlfoot, hlal, hl8ge, hlend0, _⟩ :=
    chain_mem s.mem 8 bs lq lsz lal hch hmeml
  have hch' := hch
  rw [hconcat] at hch'
  have hsplitl := chain_split_bounds s.mem 8 init [] (lq, lsz, lal) hch'
  have hlqend : lq = endPos 8 init := hsplitl.1
  have hlend : lq + lsz = s.brk := by
    have : endPos 8 (init ++ [(lq, lsz, lal)]) = endPos 8 init + lsz := by
      rw [endPos_append]
      rfl
    rw [← hE, hconcat, this]
    omega
  -- previous block of the extension block, as coalesce computes it
  have hfw2 : GET m2 (s.brk - 8) = GET s.mem (lq - 4) := by
    have h1 : GET m2 (s.brk - 8) = GET s.mem (s.brk - 8) :=
      GET_of_agreeOutside s.mem m2 _ _ _ hag2 (Or.inl (by omega))
    have h2 : lq + lsz - 8 = s.brk - 8 := by omega
    have h3 : HEADER lq = lq - 4 := rfl
    rw [h1, ← h2, hlfoot, h3]
  have hfs2 : GET_SIZE m2 (s.brk - 8) = lsz := by
    unfold GET_SIZE
    rw [hfw2]
    exact hlsz
  have hfa2 : GET_ALLOC m2 (s.brk - 8) = lal := by
    unfold GET_ALLOC
    rw [hfw2]
    exact hlal
  have hprev2 : PREVIOUS_BLOCK m2 s.brk = lq := by
    show s.brk - GET_SIZE m2 (s.brk - DSIZE) = lq
    have hw : s.brk - DSIZE = s.brk - 8 := rfl
    rw [hw, hfs2]
    omega
  have hhlq2 : GET m2 (lq - 4) = GET s.mem (lq - 4) :=
    GET_of_agreeOutside s.mem m2 _ _ _ hag2 (Or.inl (by omega))
  have hfootlq : FOOTER m2 lq = s.brk - 8 := by
    show lq + GET_SIZE m2 (HEADER lq) - DSIZE = s.brk - 8
    have h3 : HEADER lq = lq - 4 := rfl
    rw [h3, GET_SIZE_congr s.mem m2 _ hhlq2, ← h3, hlsz]
    show lq + lsz - 8 = s.brk - 8
    omega
  have hpal : GET_ALLOC m2 (FOOTER m2 (PREVIOUS_BLOCK m2 s.brk)) = lal := by
    rw [hprev2, hfootlq]
    exact hfa2
  have hlallt : lal ≤ 1 := by
    rw [← hlal]
    show GET s.mem (HEADER lq) % 2 ≤ 1
    omega
  by_cases hcase : lal = 0
  · -- the old last block is free: case 3 absorbs the extension into it
    have hinitch : chainBlocks s.mem 8 init = true :=
      ((chainBlocks_append s.mem 8 init [(lq, lsz, lal)]).mp hch').1
    obtain ⟨nfp, hcoal⟩ := coalesce_case3 { s with brk := s.brk + words * WSIZE, mem := m2 }
      s.brk
      (show GET_ALLOC m2 (FOOTER m2 (PREVIOUS_BLOCK m2 s.brk)) = 0 by rw [hpal, hcase])
      (show GET_ALLOC m2 (HEADER (NEXT_BLOCK m2 s.brk)) ≠ 0 by rw [hna]; exact one_ne_zero)
    dsimp only at hcoal
    rw [hprev2, hszE] at hcoal
    have hszlq2 : GET_SIZE m2 (HEADER lq) = lsz := by
      have h3 : HEADER lq = lq - 4 := rfl
      rw [h3, GET_SIZE_congr s.mem m2 _ hhlq2, ← h3, hlsz]
    rw [hszlq2] at hcoal
    set m3 := SET_BLOCK_DATA m2 lq (words * WSIZE + lsz) 0 with hm3def
    have hsum8 : (words * WSIZE + lsz) % 8 = 0 := by omega
    have hsummod : (words * WSIZE + lsz) % 2 ^ 32 = words * WSIZE + lsz :=
      Nat.mod_eq_of_lt (by omega)
    have hm3 : m3 = PUT (PUT m2 (lq - 4) (words * WSIZE + lsz))
        (s.brk + words * WSIZE - 8) (words * WSIZE + lsz) := by
      rw [hm3def, SBD_eq m2 lq (words * WSIZE + lsz) 0 hsum8 (by omega), hsummod]
      simp only [Nat.add_zero]
      have hfp : lq + (words * WSIZE + lsz) - 8 = s.brk + words * WSIZE - 8 := by omega
      rw [hfp]
    have hH3 : GET m3 (lq - 4) = words * WSIZE + lsz := by
      rw [hm3, GET_PP_1 _ _ _ _ _ (by omega)]
      omega
    have hF3 : GET m3 (lq + (words * WSIZE + lsz) - 8) = words * WSIZE + lsz := by
      have hfp : lq + (words * WSIZE + lsz) - 8 = s.brk + words * WSIZE - 8 := by omega
      rw [hfp, hm3, GET_PUT]
      omega
    have hEpi3 : GET m3 (s.brk + words * WSIZE - 4) = 1 := by
      rw [hm3, GET_PP_out _ _ _ _ _ _ (by omega) (by omega)]
      exact hEpi2
    have hag3 : AgreeOutside s.mem m3 (lq - 4) (s.brk + words * WSIZE) := by
      intro a ha
      rw [hm3, PUT_out _ _ _ _ (by omega), PUT_out _ _ _ _ (by omega)]
      exact hag2 a (by omega)
    have hres3 : extend_heap s words =
        ({ s with brk := s.brk + words * WSIZE, mem := m3, next_fit_pointer := nfp },
          some lq) := by
      rw [hres, hcoal]
    -- head shape of the prefix
    have hshape : (8, 8, 1) :: tl = init ++ [(lq, lsz, lal)] := by
      rw [← htl, hconcat]
    rcases init with _ | ⟨i0, init'⟩
    · simp only [List.nil_append, List.cons.injEq] at hshape
      have : lal = 1 := by
        have := hshape.1
        injection this with e1 e23
        injection e23 with e2 e3
        exact e3.symm
      omega
    have hi0 : i0 = (8, 8, 1) := by
      simp only [List.cons_append, List.cons.injEq] at hshape
      exact hshape.1.symm
    subst hi0
    refine ⟨_, lq, words * WSIZE + lsz, (8, 8, 1) :: init', hres3, ?_, by omega, rfl, rfl,
      by show lq + (words * WSIZE + lsz) = s.brk + words * WSIZE; omega, ?_⟩
    · -- wellformedness of the merged chain
      have hchinit3 : chainBlocks m3 8 ((8, 8, 1) :: init') = true := by
        refine chainBlocks_frame s.mem m3 8 _ hinitch (fun a h1 h2 => hag3 a (Or.inl ?_))
        rw [← hlqend] at h2
        omega
      have hsingle3 : chainBlocks m3 lq [(lq, words * WSIZE + lsz, 0)] = true :=
        chain_single m3 lq (words * WSIZE + lsz) 0 (by rw [hH3]; omega) (by rw [hF3]; omega) hsum8
          (by omega) (by omega)
      have hch3 : chainBlocks m3 8 (((8, 8, 1) :: init') ++
          [(lq, words * WSIZE + lsz, 0)]) = true := by
        refine (chainBlocks_append m3 8 _ _).mpr ⟨hchinit3, ?_⟩
        rw [← hlqend]
        exact hsingle3
      have hend3 : endPos 8 (((8, 8, 1) :: init') ++ [(lq, words * WSIZE + lsz, 0)]) =
          s.brk + words * WSIZE := by
        rw [endPos_append, ← hlqend]
        show lq + (words * WSIZE + lsz) = s.brk + words * WSIZE
        omega
      have hep3 : epiOk m3 (s.brk + words * WSIZE) (s.brk + words * WSIZE) = true := by
        refine (epiOk_spec _ _ _).mpr ⟨rfl, ?_, ?_⟩
        · show GET_SIZE m3 (s.brk + words * WSIZE - 4) = 0
          exact GET_SIZE_eq m3 _ 0 1 (by rw [hEpi3]) (by omega) (by omega)
        · show GET_ALLOC m3 (s.brk + words * WSIZE - 4) = 1
          exact GET_ALLOC_eq m3 _ 0 1 (by rw [hEpi3]) (by omega) (by omega)
      rw [List.cons_append]
      refine WfCore_intro _ _ hlp (by show (s.brk + words * WSIZE) % 8 = 0; omega) (by show s.brk + words * WSIZE < 2 ^ 31; omega) hcap31 ?_ ?_
      · rw [← List.cons_append]
        exact hch3
      · rw [← List.cons_append, hend3]
        exact hep3
    · intro q sz hq
      rw [hconcat] at hq
      rcases List.mem_append.mp hq with hqi | hql
      · have hqb : q + sz ≤ lq := by
          have := (hsplitl.2.1 (q, sz, 1) hqi).2
          dsimp only at this
          exact this
        have hqbs : (q, sz, 1) ∈ bs := by
          rw [hconcat]
          exact List.mem_append_left _ hqi
        obtain ⟨_, _, hsz8, _⟩ := chain_mem s.mem 8 bs q sz 1 hch hqbs
        refine ⟨by omega, hqi, ?_⟩
        intro a ha1 ha2
        show m3 a = s.mem a
        exact hag3 a (Or.inl (by omega))
      · rcases List.mem_cons.mp hql with heq | h
        · injection heq with e1 e23
          injection e23 with e2 e3
          rw [hcase] at e3
          exact absurd e3 (by decide)
        · cases h
  · -- the old last block is allocated: case 1, the extension stands alone
    have hlal1 : lal = 1 := by omega
    have hcoal := coalesce_case1 { s with brk := s.brk + words * WSIZE, mem := m2 } s.brk
      (show GET_ALLOC m2 (FOOTER m2 (PREVIOUS_BLOCK m2 s.brk)) ≠ 0 by
        rw [hpal, hlal1]; exact one_ne_zero)
      (show GET_ALLOC m2 (HEADER (NEXT_BLOCK m2 s.brk)) ≠ 0 by rw [hna]; exact one_ne_zero)
    have hres1 : extend_heap s words =
        ({ s with brk := s.brk + words * WSIZE, mem := m2 }, some s.brk) := by
      rw [hres, hcoal]
    refine ⟨_, s.brk, words * WSIZE, bs, hres1, ?_, Nat.le_refl _, rfl, rfl,
      rfl, ?_⟩
    · -- wellformedness of the chain extended by the fresh free block
      have hchbs2 : chainBlocks m2 8 bs = true := by
        refine chainBlocks_frame s.mem m2 8 bs hch (fun a h1 h2 => hag2 a (Or.inl ?_))
        rw [hE] at h2
        omega
      have hsingle2 : chainBlocks m2 s.brk [(s.brk, words * WSIZE, 0)] = true :=
        chain_single m2 s.brk (words * WSIZE) 0 (by rw [hH2]; omega) (by rw [hF2]; omega) hesz8
          (by omega) (by omega)
      have hch2 : chainBlocks m2 8 (bs ++ [(s.brk, words * WSIZE, 0)]) = true := by
        refine (chainBlocks_append m2 8 _ _).mpr ⟨hchbs2, ?_⟩
        rw [hE]
        exact hsingle2
      have hend2 : endPos 8 (bs ++ [(s.brk, words * WSIZE, 0)]) =
          s.brk + words * WSIZE := by
        rw [endPos_append, hE]
        rfl
      have hep2 : epiOk m2 (s.brk + words * WSIZE) (s.brk + words * WSIZE) = true := by
        refine (epiOk_spec _ _ _).mpr ⟨rfl, ?_, ?_⟩
        · show GET_SIZE m2 (s.brk + words * WSIZE - 4) = 0
          exact GET_SIZE_eq m2 _ 0 1 (by rw [hEpi2]) (by omega) (by omega)
        · show GET_ALLOC m2 (s.brk + words * WSIZE - 4) = 1
          exact GET_ALLOC_eq m2 _ 0 1 (by rw [hEpi2]) (by omega) (by omega)
      rw [htl, List.cons_append]
      refine WfCore_intro _ _ hlp (by show (s.brk + words * WSIZE) % 8 = 0; omega) (by show s.brk + words * WSIZE < 2 ^ 31; omega) hcap31 ?_ ?_
      · rw [← List.cons_append, ← htl]
        exact hch2
      · rw [← List.cons_append, ← htl, hend2]
        exact hep2
    · intro q sz hq
      obtain ⟨_, _, hsz8, _, _, _, hqend, _⟩ := chain_mem s.mem 8 bs q sz 1 hch hq
      rw [hE] at hqend
      refine ⟨by omega, hq, ?_⟩
      intro a ha1 ha2
      show m2 a = s.mem a
      exact hag2 a (Or.inl (by omega))

/-- A failing arena extension: the state is returned unchanged with the
error sentinel. -/
theorem extend_heap_fail (s : MMState) (words : Nat) (heven : words % 2 = 0)
    (hcap : s.cap < s.brk + words * WSIZE) : extend_heap s words = (s, none) := by
  have hodd : ¬ (words % 2 = 1) := by omega
  have hsbrk : mem_sbrk s (words * WSIZE) = (s, none) := by
    unfold mem_sbrk
    rw [if_pos hcap]
  simp only [extend_heap]
  rw [if_neg hodd, hsbrk]

/-- The effect of a successful `mm_malloc` on a wellformed heap: the result
is a wellformed heap in which the returned pointer heads an allocated block
of at least the adjusted size, and every previously allocated block is still
listed, at a different position, with all its bytes intact. -/
theorem mm_malloc_spec (s : MMState) (bs : List (Nat × Nat × Nat)) (n : Nat)
    (hwf : WfState s bs = true) (h0 : 0 < n) (hn : n ≤ 2 ^ 31 - 16)
    (s1 : MMState) (newp : Nat) (hmal : mm_malloc s n = (s1, some newp)) :
    ∃ xs1 bsz ys1,
      WfCore s1 (xs1 ++ (newp, bsz, 1) :: ys1) = true ∧
      adjustedSize n ≤ bsz ∧
      (∀ q sz, (q, sz, 1) ∈ bs → q ≠ newp ∧
        ((q, sz, 1) ∈ xs1 ∨ (q, sz, 1) ∈ ys1) ∧
        (∀ a, q - 4 ≤ a → a + 4 < q + sz → s1.mem a = s.mem a)) := by
  obtain ⟨hcore, _⟩ := WfState_spec s bs hwf
  obtain ⟨hchS, hepS⟩ := by
    obtain ⟨_, _, _, _, _, h6, h7⟩ := WfCore_spec s bs hcore
    exact And.intro h6 h7
  obtain ⟨h8a, h16a, hna, hlt31⟩ := adjustedSize_facts n h0 hn
  have hne0 : ¬ (n = 0) := by omega
  simp only [mm_malloc] at hmal
  rw [if_neg hne0] at hmal
  rcases hffv : find_fit s (adjustedSize n) with ⟨sF, rF⟩
  rcases rF with _ | bp
  · -- miss: the heap is extended
    have h2' : (find_fit s (adjustedSize n)).2 = none := by rw [hffv]
    have h1' : (find_fit s (adjustedSize n)).1 = s :=
      findLoop_none_state s (adjustedSize n) (s.brk + 1) s.next_fit_pointer h2'
    have hsF : sF = s := by
      rw [hffv] at h1'
      exact h1'
    rw [hsF] at hffv
    simp only [hffv] at hmal
    have hcast : toInt32 (adjustedSize n) = Int.ofNat (adjustedSize n) := by
      unfold toInt32
      rw [if_pos hlt31]
      rfl
    have hMAXv : (MAX (toInt32 (adjustedSize n)) (Int.ofNat CHUNKSIZE)).toNat =
        (if 4096 < adjustedSize n then adjustedSize n else 4096) := by
      have hiff : Int.ofNat CHUNKSIZE < Int.ofNat (adjustedSize n) ↔ 4096 < adjustedSize n :=
        Int.ofNat_lt
      unfold MAX
      by_cases hA : 4096 < adjustedSize n
      · have hc : toInt32 (adjustedSize n) > Int.ofNat CHUNKSIZE := by
          rw [hcast]
          exact hiff.mpr hA
        rw [if_pos hc, hcast, if_pos hA]
        exact Int.toNat_natCast _
      · have hc : ¬ (toInt32 (adjustedSize n) > Int.ofNat CHUNKSIZE) := by
          rw [hcast]
          exact fun hcc => hA (hiff.mp hcc)
        rw [if_neg hc, if_neg hA]
        rfl
    set w := (MAX (toInt32 (adjustedSize n)) (Int.ofNat CHUNKSIZE)).toNat / WSIZE with hwdef
    have hwW : w * 4 = (if 4096 < adjustedSize n then adjustedSize n else 4096) := by
      rw [hwdef, hMAXv]
      show ((if 4096 < adjustedSize n then adjustedSize n else 4096) / 4) * 4 = _
      by_cases hA : 4096 < adjustedSize n
      · rw [if_pos hA]
        omega
      · rw [if_neg hA]
    have hwW4 : w * WSIZE = w * 4 := rfl
    have hAle : adjustedSize n ≤ w * 4 := by
      by_cases hA : 4096 < adjustedSize n
      · rw [hwW, if_pos hA]
      · rw [hwW, if_neg hA]
        omega
    have heven : w % 2 = 0 := by
      by_cases hA : 4096 < adjustedSize n
      · rw [if_pos hA] at hwW
        omega
      · rw [if_neg hA] at hwW
        omega
    have h16w : 16 ≤ w * WSIZE := by
      rw [hwW4]
      omega
    by_cases hcap : s.brk + w * WSIZE ≤ s.cap
    · obtain ⟨s2, rp, rsz, xs1, hE2, hcoreE, hszle, hbrkE, hcapE, hrpend, hpresE⟩ :=
        extend_heap_spec s bs w hcore heven h16w hcap
      rw [hE2] at hmal
      simp only [] at hmal
      injection hmal with h1 h2
      injection h2 with h3
      subst h3
      have hAle2 : adjustedSize n ≤ rsz := by
        rw [hwW4] at hszle
        omega
      obtain ⟨nsz, bs2, hcoreR, hnszge, hbrkR, hcapR, hbelow, hysR⟩ :=
        place_spec s2 xs1 [] rp rsz (adjustedSize n) hcoreE h8a h16a hAle2
      obtain ⟨_, _, _, _, _, hchE, _⟩ := WfCore_spec s2 _ hcoreE
      have hboundsE := chain_split_bounds s2.mem 8 xs1 [] (rp, rsz, 0) hchE
      refine ⟨xs1, nsz, bs2, ?_, hnszge, ?_⟩
      · rw [h1] at hcoreR
        exact hcoreR
      · intro q sz hq
        obtain ⟨hqne, hqxs1, hqbytes⟩ := hpresE q sz hq
        refine ⟨hqne, Or.inl hqxs1, ?_⟩
        intro a ha1 ha2
        have hqend : q + sz ≤ rp := by
          have := (hboundsE.2.1 (q, sz, 1) hqxs1).2
          dsimp only at this
          exact this
        rw [← h1]
        rw [hbelow a (by omega)]
        exact hqbytes a ha1 ha2
    · exfalso
      rw [extend_heap_fail s w heven (by omega)] at hmal
      simp only [Prod.mk.injEq] at hmal
      exact absurd hmal.2 (by simp)
  · -- hit: place into the found block
    simp only [hffv] at hmal
    injection hmal with h1 h2
    injection h2 with h3
    subst h3
    obtain ⟨hsF, rsz, hmemb, hrge⟩ := find_fit_spec s bs (adjustedSize n) hwf sF bp hffv
    subst hsF
    have hcoreF : WfCore { s with next_fit_pointer := bp } bs = true := by
      rw [WfCore_nfp]
      exact hcore
    obtain ⟨xs, ys, hsplit⟩ := List.append_of_mem hmemb
    rw [hsplit] at hcoreF
    obtain ⟨nsz, bs2, hcoreR, hnszge, hbrkR, hcapR, hbelow, hysR⟩ :=
      place_spec { s with next_fit_pointer := bp } xs ys bp rsz (adjustedSize n)
        hcoreF h8a h16a hrge
    have hbounds := chain_split_bounds s.mem 8 xs ys (bp, rsz, 0)
      (by rw [← hsplit]; exact hchS)
    refine ⟨xs, nsz, bs2, ?_, hnszge, ?_⟩
    · rw [h1] at hcoreR
      exact hcoreR
    · intro q sz hq
      have hqne : q ≠ bp := by
        intro he
        subst he
        have := chain_mem_unique s.mem 8 bs q sz 1 rsz 0 hchS hq hmemb
        omega
      rw [hsplit] at hq
      rcases List.mem_append.mp hq with hqx | hqy
      · refine ⟨hqne, Or.inl hqx, ?_⟩
        intro a ha1 ha2
        have hqend : q + sz ≤ bp := by
          have := (hbounds.2.1 (q, sz, 1) hqx).2
          dsimp only at this
          exact this
        rw [← h1]
        exact hbelow a (by omega)
      · rcases List.mem_cons.mp hqy with heq | hqy2
        · injection heq with e1 e23
          injection e23 with e2 e3
          cases e3
        · obtain ⟨hmem2, hbytes2⟩ := hysR q sz hqy2
          refine ⟨hqne, Or.inr hmem2, ?_⟩
          intro a ha1 ha2
          rw [← h1]
          exact hbytes2 a ha1 ha2

/-- Footprint of `mm_free` on a wellformed heap: freeing a listed allocated
block (other than the prologue) only writes inside the freed block's extent
and the extents of the free neighbours it merges with, so every other
allocated block keeps all its bytes. -/
theorem mm_free_preserves (s : MMState) (bs : List (Nat × Nat × Nat)) (ptr psz : Nat)
    (hcore : WfCore s bs = true) (hmem : (ptr, psz, 1) ∈ bs) (hptr : ptr ≠ 8) :
    ∀ q sz, (q, sz, 1) ∈ bs → q ≠ ptr →
      ∀ a, q - 4 ≤ a → a + 4 < q + sz → (mm_free s ptr).mem a = s.mem a := by
  obtain ⟨hlp, hbrk8, hbrk31, hcap31, ⟨tl, htl⟩, hch, hep⟩ := WfCore_spec s bs hcore
  have hE : endPos 8 bs = s.brk := ((epiOk_spec _ _ _).mp hep).1
  obtain ⟨hpsz, hp8, hp8le, hpfoot, hpal, hpge, hpendE, _⟩ :=
    chain_mem s.mem 8 bs ptr psz 1 hch hmem
  have hpend : ptr + psz ≤ s.brk := by rw [← hE]; exact hpendE
  set m1 := SET_BLOCK_DATA s.mem ptr psz 0 with hm1def
  have hres : mm_free s ptr = (coalesce { s with mem := m1 } ptr).1 := by
    show (coalesce { s with
      mem := SET_BLOCK_DATA s.mem ptr (GET_SIZE s.mem (HEADER ptr)) 0 } ptr).1 = _
    rw [hpsz, ← hm1def]
  have hpmod : psz % 2 ^ 32 = psz := Nat.mod_eq_of_lt (by omega)
  have hm1 : m1 = PUT (PUT s.mem (ptr - 4) psz) (ptr + psz - 8) psz := by
    rw [hm1def, SBD_eq s.mem ptr psz 0 hp8 (by omega), hpmod]
    simp only [Nat.add_zero]
  have hH1 : GET m1 (ptr - 4) = psz := by
    rw [hm1, GET_PP_1 _ _ _ _ _ (by omega)]
    omega
  have hF1 : GET m1 (ptr + psz - 8) = psz := by
    rw [hm1, GET_PUT]
    omega
  have hag1 : AgreeOutside s.mem m1 (ptr - 4) (ptr + psz - 4) := by
    rw [hm1def]
    exact SBD_agreeOutside s.mem ptr psz 0 hp8 (by omega) hp8le (by omega) (by omega)
  have hsz1 : GET_SIZE m1 (HEADER ptr) = psz := by
    refine GET_SIZE_eq m1 _ psz 0 ?_ hp8 (by omega)
    show GET m1 (ptr - 4) = psz + 0
    rw [hH1]
    omega
  have hnb1 : NEXT_BLOCK m1 ptr = ptr + psz := by
    show ptr + GET_SIZE m1 (ptr - WSIZE) = ptr + psz
    have hw : ptr - WSIZE = ptr - 4 := rfl
    rw [hw]
    show ptr + GET_SIZE m1 (HEADER ptr) = _
    rw [hsz1]
  -- the block before `ptr` in the chain
  obtain ⟨xs, ys, hsplit⟩ := List.append_of_mem hmem
  have hchs := hch
  rw [hsplit] at hchs
  have hsplitb := chain_split_bounds s.mem 8 xs ys (ptr, psz, 1) hchs
  have hptrend : ptr = endPos 8 xs := hsplitb.1
  have hxsne : xs ≠ [] := by
    intro hxe
    rw [hxe, List.nil_append] at hsplit
    rw [htl] at hsplit
    injection hsplit with he1 _
    injection he1 with e1 e23
    exact hptr e1.symm
  rcases List.eq_nil_or_concat xs with hxe | ⟨xs0, prev, hxs0⟩
  · exact absurd hxe hxsne
  obtain ⟨pq, pqsz, pal⟩ := prev
  rw [List.concat_eq_append] at hxs0
  have hpmem : (pq, pqsz, pal) ∈ bs := by
    rw [hsplit, hxs0]
    exact List.mem_append_left _ (List.mem_append_right _ (List.mem_cons_self _ _))
  obtain ⟨hpqsz, hpq8, hpq8le, hpqfoot, hpqal, hpqge, hpqendE, _⟩ :=
    chain_mem s.mem 8 bs pq pqsz pal hch hpmem
  have hxsch : chainBlocks s.mem 8 xs = true :=
    ((chainBlocks_append s.mem 8 xs ((ptr, psz, 1) :: ys)).mp hchs).1
  have hxsch0 := hxsch
  rw [hxs0] at hxsch0
  have hpqpos : pq = endPos 8 xs0 := (chain_split_bounds s.mem 8 xs0 [] (pq, pqsz, pal) hxsch0).1
  have hpqend : pq + pqsz = ptr := by
    rw [hptrend, hxs0, endPos_append, ← hpqpos]
    rfl
  have hpallt : pal ≤ 1 := by
    rw [← hpqal]
    show GET s.mem (HEADER pq) % 2 ≤ 1
    omega
  -- previous block and its footer, as coalesce computes them on `m1`
  have hfw1 : GET m1 (ptr - 8) = GET s.mem (pq - 4) := by
    have h1 : GET m1 (ptr - 8) = GET s.mem (ptr - 8) :=
      GET_of_agreeOutside s.mem m1 _ _ _ hag1 (Or.inl (by omega))
    have h2 : pq + pqsz - 8 = ptr - 8 := by omega
    have h3 : HEADER pq = pq - 4 := rfl
    rw [h1, ← h2, hpqfoot, h3]
  have hprev1 : PREVIOUS_BLOCK m1 ptr = pq := by
    show ptr - GET_SIZE m1 (ptr - DSIZE) = pq
    have hw : ptr - DSIZE = ptr - 8 := rfl
    have hs2 : GET_SIZE m1 (ptr - 8) = pqsz := by
      unfold GET_SIZE
      rw [hfw1]
      exact hpqsz
    rw [hw, hs2]
    omega
  have hhpq1 : GET m1 (pq - 4) = GET s.mem (pq - 4) :=
    GET_of_agreeOutside s.mem m1 _ _ _ hag1 (Or.inl (by omega))
  have hfootpq : FOOTER m1 pq = ptr - 8 := by
    show pq + GET_SIZE m1 (HEADER pq) - DSIZE = ptr - 8
    have h3 : HEADER pq = pq - 4 := rfl
    rw [h3, GET_SIZE_congr s.mem m1 _ hhpq1, ← h3, hpqsz]
    show pq + pqsz - 8 = ptr - 8
    omega
  have hpa1 : GET_ALLOC m1 (FOOTER m1 (PREVIOUS_BLOCK m1 ptr)) = pal := by
    rw [hprev1, hfootpq]
    unfold GET_ALLOC
    rw [hfw1]
    exact hpqal
  have hszpq1 : GET_SIZE m1 (HEADER pq) = pqsz := by
    have h3 : HEADER pq = pq - 4 := rfl
    rw [h3]
    unfold GET_SIZE
    rw [hhpq1]
    exact hpqsz
  -- the block (or epilogue) after `ptr`
  have hnext_eq : GET m1 (ptr + psz - 4) = GET s.mem (ptr + psz - 4) :=
    GET_of_agreeOutside s.mem m1 _ _ _ hag1 (Or.inr (by omega))
  rcases chain_next s.mem s.brk bs ptr psz 1 hch hep hmem with
    ⟨nsz, nal, hnmem, hnszv, hnge⟩ | ⟨hbrkv, hnsz0⟩
  · -- a listed block follows
    obtain ⟨_, hn8, _, _, hnal, _, hnendE, _⟩ := chain_mem s.mem 8 bs (ptr + psz) nsz nal hch hnmem
    have hnend : ptr + psz + nsz ≤ s.brk := by rw [← hE]; exact hnendE
    have hna1 : GET_ALLOC m1 (HEADER (NEXT_BLOCK m1 ptr)) = nal := by
      rw [hnb1]
      show GET_ALLOC m1 (ptr + psz - 4) = nal
      unfold GET_ALLOC
      rw [hnext_eq]
      exact hnal
    have hnallt : nal ≤ 1 := by
      rw [← hnal]
      show GET s.mem (HEADER (ptr + psz)) % 2 ≤ 1
      omega
    have hszn1 : GET_SIZE m1 (HEADER (NEXT_BLOCK m1 ptr)) = nsz := by
      rw [hnb1]
      show GET_SIZE m1 (ptr + psz - 4) = nsz
      unfold GET_SIZE
      rw [hnext_eq]
      exact hnszv
    by_cases hpal0 : pal = 0
    · by_cases hnal0 : nal = 0
      · -- both neighbours free: case 4
        obtain ⟨nfp, hcoal⟩ := coalesce_case4 { s with mem := m1 } ptr
          (show GET_ALLOC m1 (FOOTER m1 (PREVIOUS_BLOCK m1 ptr)) = 0 by rw [hpa1, hpal0])
          (show GET_ALLOC m1 (HEADER (NEXT_BLOCK m1 ptr)) = 0 by rw [hna1, hnal0])
        dsimp only at hcoal
        rw [hprev1, hsz1, hszn1, hszpq1] at hcoal
        have hfin : (mm_free s ptr).mem = SET_BLOCK_DATA m1 pq (psz + nsz + pqsz) 0 := by
          rw [hres, hcoal]
        have hagC : AgreeOutside m1 (SET_BLOCK_DATA m1 pq (psz + nsz + pqsz) 0)
            (pq - 4) (pq + (psz + nsz + pqsz) - 4) :=
          SBD_agreeOutside m1 pq (psz + nsz + pqsz) 0 (by omega) (by omega) (by omega)
            (by omega) (by omega)
        intro q sz hq hqne a ha1 ha2
        obtain ⟨_, _, hq8le, _, _, hqge, hqendE, _⟩ := chain_mem s.mem 8 bs q sz 1 hch hq
        have hdq := chain_disjoint s.mem 8 bs q sz 1 ptr psz 1 hch hq hmem hqne
        have hqnepq : q ≠ pq := by
          intro he
          subst he
          have := chain_mem_unique s.mem 8 bs q sz 1 pqsz pal hch hq hpmem
          omega
        have hqnen : q ≠ ptr + psz := by
          intro he
          rw [he] at hq
          have := chain_mem_unique s.mem 8 bs (ptr + psz) sz 1 nsz nal hch hq hnmem
          omega
        have hdqp := chain_disjoint s.mem 8 bs q sz 1 pq pqsz pal hch hq hpmem hqnepq
        have hdqn := chain_disjoint s.mem 8 bs q sz 1 (ptr + psz) nsz nal hch hq hnmem hqnen
        have hout : a < pq - 4 ∨ pq + (psz + nsz + pqsz) - 4 ≤ a := by omega
        rw [hfin, hagC a hout]
        exact hag1 a (by omega)
      · -- only the previous neighbour free: case 3
        have hnal1 : nal = 1 := by omega
        obtain ⟨nfp, hcoal⟩ := coalesce_case3 { s with mem := m1 } ptr
          (show GET_ALLOC m1 (FOOTER m1 (PREVIOUS_BLOCK m1 ptr)) = 0 by rw [hpa1, hpal0])
          (show GET_ALLOC m1 (HEADER (NEXT_BLOCK m1 ptr)) ≠ 0 by
            rw [hna1, hnal1]; exact one_ne_zero)
        dsimp only at hcoal
        rw [hprev1, hsz1, hszpq1] at hcoal
        have hfin : (mm_free s ptr).mem = SET_BLOCK_DATA m1 pq (psz + pqsz) 0 := by
          rw [hres, hcoal]
        have hagC : AgreeOutside m1 (SET_BLOCK_DATA m1 pq (psz + pqsz) 0)
            (pq - 4) (pq + (psz + pqsz) - 4) :=
          SBD_agreeOutside m1 pq (psz + pqsz) 0 (by omega) (by omega) (by omega)
            (by omega) (by omega)
        intro q sz hq hqne a ha1 ha2
        obtain ⟨_, _, hq8le, _, _, hqge, hqendE, _⟩ := chain_mem s.mem 8 bs q sz 1 hch hq
        have hdq := chain_disjoint s.mem 8 bs q sz 1 ptr psz 1 hch hq hmem hqne
        have hqnepq : q ≠ pq := by
          intro he
          subst he
          have := chain_mem_unique s.mem 8 bs q sz 1 pqsz pal hch hq hpmem
          omega
        have hdqp := chain_disjoint s.mem 8 bs q sz 1 pq pqsz pal hch hq hpmem hqnepq
        have hout : a < pq - 4 ∨ pq + (psz + pqsz) - 4 ≤ a := by omega
        rw [hfin, hagC a hout]
        exact hag1 a (by omega)
    · have hpal1 : pal = 1 := by omega
      by_cases hnal0 : nal = 0
      · -- only the next neighbour free: case 2
        obtain ⟨nfp, hcoal⟩ := coalesce_case2 { s with mem := m1 } ptr
          (show GET_ALLOC m1 (FOOTER m1 (PREVIOUS_BLOCK m1 ptr)) ≠ 0 by
            rw [hpa1, hpal1]; exact one_ne_zero)
          (show GET_ALLOC m1 (HEADER (NEXT_BLOCK m1 ptr)) = 0 by rw [hna1, hnal0])
        dsimp only at hcoal
        rw [hsz1, hszn1] at hcoal
        have hfin : (mm_free s ptr).mem = SET_BLOCK_DATA m1 ptr (psz + nsz) 0 := by
          rw [hres, hcoal]
        have hagC : AgreeOutside m1 (SET_BLOCK_DATA m1 ptr (psz + nsz) 0)
            (ptr - 4) (ptr + (psz + nsz) - 4) :=
          SBD_agreeOutside m1 ptr (psz + nsz) 0 (by omega) (by omega) (by omega)
            (by omega) (by omega)
        intro q sz hq hqne a ha1 ha2
        obtain ⟨_, _, hq8le, _, _, hqge, hqendE, _⟩ := chain_mem s.mem 8 bs q sz 1 hch hq
        have hdq := chain_disjoint s.mem 8 bs q sz 1 ptr psz 1 hch hq hmem hqne
        have hqnen : q ≠ ptr + psz := by
          intro he
          rw [he] at hq
          have := chain_mem_unique s.mem 8 bs (ptr + psz) sz 1 nsz nal hch hq hnmem
          omega
        have hdqn := chain_disjoint s.mem 8 bs q sz 1 (ptr + psz) nsz nal hch hq hnmem hqnen
        have hout : a < ptr - 4 ∨ ptr + (psz + nsz) - 4 ≤ a := by omega
        rw [hfin, hagC a hout]
        exact hag1 a (by omega)
      · -- both neighbours allocated: case 1, only the tags of `ptr` change
        have hnal1 : nal = 1 := by omega
        have hcoal := coalesce_case1 { s with mem := m1 } ptr
          (show GET_ALLOC m1 (FOOTER m1 (PREVIOUS_BLOCK m1 ptr)) ≠ 0 by
            rw [hpa1, hpal1]; exact one_ne_zero)
          (show GET_ALLOC m1 (HEADER (NEXT_BLOCK m1 ptr)) ≠ 0 by
            rw [hna1, hnal1]; exact one_ne_zero)
        have hfin : (mm_free s ptr).mem = m1 := by
          rw [hres, hcoal]
        intro q sz hq hqne a ha1 ha2
        obtain ⟨_, _, hq8le, _, _, hqge, hqendE, _⟩ := chain_mem s.mem 8 bs q sz 1 hch hq
        have hdq := chain_disjoint s.mem 8 bs q sz 1 ptr psz 1 hch hq hmem hqne
        rw [hfin]
        exact hag1 a (by omega)
  · -- the epilogue follows: its header is allocated, so case 1 or case 3
    have hna1 : GET_ALLOC m1 (HEADER (NEXT_BLOCK m1 ptr)) = 1 := by
      rw [hnb1]
      show GET_ALLOC m1 (ptr + psz - 4) = 1
      unfold GET_ALLOC
      rw [hnext_eq]
      have he2 := ((epiOk_spec _ _ _).mp hep).2.2
      rw [hE, ← hbrkv] at he2
      exact he2
    by_cases hpal0 : pal = 0
    · obtain ⟨nfp, hcoal⟩ := coalesce_case3 { s with mem := m1 } ptr
        (show GET_ALLOC m1 (FOOTER m1 (PREVIOUS_BLOCK m1 ptr)) = 0 by rw [hpa1, hpal0])
        (show GET_ALLOC m1 (HEADER (NEXT_BLOCK m1 ptr)) ≠ 0 by rw [hna1]; exact one_ne_zero)
      dsimp only at hcoal
      rw [hprev1, hsz1, hszpq1] at hcoal
      have hfin : (mm_free s ptr).mem = SET_BLOCK_DATA m1 pq (psz + pqsz) 0 := by
        rw [hres, hcoal]
      have hagC : AgreeOutside m1 (SET_BLOCK_DATA m1 pq (psz + pqsz) 0)
          (pq - 4) (pq + (psz + pqsz) - 4) :=
        SBD_agreeOutside m1 pq (psz + pqsz) 0 (by omega) (by omega) (by omega)
          (by omega) (by omega)
      intro q sz hq hqne a ha1 ha2
      obtain ⟨_, _, hq8le, _, _, hqge, hqendE, _⟩ := chain_mem s.mem 8 bs q sz 1 hch hq
      have hdq := chain_disjoint s.mem 8 bs q sz 1 ptr psz 1 hch hq hmem hqne
      have hqnepq : q ≠ pq := by
        intro he
        subst he
        have := chain_mem_unique s.mem 8 bs q sz 1 pqsz pal hch hq hpmem
        omega
      have hdqp := chain_disjoint s.mem 8 bs q sz 1 pq pqsz pal hch hq hpmem hqnepq
      have hout : a < pq - 4 ∨ pq + (psz + pqsz) - 4 ≤ a := by omega
      rw [hfin, hagC a hout]
      exact hag1 a (by omega)
    · have hpal1 : pal = 1 := by omega
      have hcoal := coalesce_case1 { s with mem := m1 } ptr
        (show GET_ALLOC m1 (FOOTER m1 (PREVIOUS_BLOCK m1 ptr)) ≠ 0 by
          rw [hpa1, hpal1]; exact one_ne_zero)
        (show GET_ALLOC m1 (HEADER (NEXT_BLOCK m1 ptr)) ≠ 0 by rw [hna1]; exact one_ne_zero)
      have hfin : (mm_free s ptr).mem = m1 := by
        rw [hres, hcoal]
      intro q sz hq hqne a ha1 ha2
      obtain ⟨_, _, hq8le, _, _, hqge, hqendE, _⟩ := chain_mem s.mem 8 bs q sz 1 hch hq
      have hdq := chain_disjoint s.mem 8 bs q sz 1 ptr psz 1 hch hq hmem hqne
      rw [hfin]
      exact hag1 a (by omega)

/-- `SET_BLOCK_DATA` never writes strictly below `bp - 8`, whatever the size
argument is (the header is at `bp - 4` and the footer at or above `bp - 8`). -/
theorem SBD_out_low (m : Mem) (bp sz al a : Nat) (ha : a + 8 < bp) :
    SET_BLOCK_DATA m bp sz al a = m a := by
  show PUT (PUT m (HEADER bp) (PACK sz al))
      (FOOTER (PUT m (HEADER bp) (PACK sz al)) bp) (PACK sz al) a = m a
  have hhd : HEADER bp = bp - 4 := rfl
  have hfge : bp - 8 ≤ FOOTER (PUT m (HEADER bp) (PACK sz al)) bp := by
    show bp - 8 ≤ bp + GET_SIZE (PUT m (HEADER bp) (PACK sz al)) (HEADER bp) - DSIZE
    have hD : DSIZE = 8 := rfl
    omega
  rw [PUT_out _ _ _ _ (Or.inl (by omega)), hhd, PUT_out _ _ _ _ (Or.inl (by omega))]

/-- Header sizes are always multiples of 8 (the low three bits are masked). -/
theorem GET_SIZE_mod8 (m : Mem) (p : Nat) : GET_SIZE m p % 8 = 0 := by
  unfold GET_SIZE
  omega

/-- The in-place shrink path of `mm_realloc` (`asize < copySize`): the call
returns `ptr` with its header rewritten to the adjusted size, and the payload
bytes up to the new capacity untouched. -/
theorem realloc_shrink_spec (s : MMState) (ptr psz n : Nat)
    (hcs : GET_SIZE s.mem (HEADER ptr) = psz) (hp8 : psz % 8 = 0) (hp31 : psz < 2 ^ 31)
    (hptr : 8 ≤ ptr) (hne : ¬ n = psz)
    (hlt : adjustedSize n < psz) (hA8 : adjustedSize n % 8 = 0)
    (h16 : 16 ≤ adjustedSize n) :
    ∃ s2, mm_realloc s ptr n = (s2, some ptr) ∧
      GET s2.mem (ptr - 4) = adjustedSize n + 1 ∧
      (∀ a, ptr ≤ a → a + 8 < ptr + adjustedSize n → s2.mem a = s.mem a) := by
  set A := adjustedSize n with hAdef
  have hgap : A + 8 ≤ psz := by omega
  have hAmod : A % 2 ^ 32 = A := Nat.mod_eq_of_lt (by omega)
  have hrmod : (psz - A) % 2 ^ 32 = psz - A := Nat.mod_eq_of_lt (by omega)
  set m1 := SET_BLOCK_DATA s.mem ptr A 1 with hm1def
  have hm1 : m1 = PUT (PUT s.mem (ptr - 4) (A + 1)) (ptr + A - 8) (A + 1) := by
    rw [hm1def, SBD_eq s.mem ptr A 1 hA8 (by omega), hAmod]
  have hH1 : GET m1 (ptr - 4) = A + 1 := by
    rw [hm1, GET_PP_1 _ _ _ _ _ (by omega)]
    omega
  have hF1 : GET m1 (ptr + A - 8) = A + 1 := by
    rw [hm1, GET_PUT]
    omega
  have hnb1 : NEXT_BLOCK m1 ptr = ptr + A := by
    show ptr + GET_SIZE m1 (ptr - WSIZE) = ptr + A
    have hw : ptr - WSIZE = ptr - 4 := rfl
    rw [hw, GET_SIZE_eq m1 _ A 1 (by rw [hH1]) hA8 (by omega)]
  set m2 := SET_BLOCK_DATA m1 (ptr + A) (psz - A) 0 with hm2def
  have hm2 : m2 = PUT (PUT m1 (ptr + A - 4) (psz - A)) (ptr + psz - 8) (psz - A) := by
    rw [hm2def, SBD_eq m1 (ptr + A) (psz - A) 0 (by omega) (by omega), hrmod]
    simp only [Nat.add_zero]
    have hfp : ptr + A + (psz - A) - 8 = ptr + psz - 8 := by omega
    rw [hfp]
  have hH2 : GET m2 (ptr - 4) = A + 1 := by
    rw [hm2, GET_PP_out _ _ _ _ _ _ (by omega) (by omega)]
    exact hH1
  have hF2 : GET m2 (ptr + A - 8) = A + 1 := by
    rw [hm2, GET_PP_out _ _ _ _ _ _ (by omega) (by omega)]
    exact hF1
  have hhrb : GET m2 (ptr + A - 4) = psz - A := by
    rw [hm2, GET_PP_1 _ _ _ _ _ (by omega)]
    omega
  have hnb2 : NEXT_BLOCK m2 ptr = ptr + A := by
    show ptr + GET_SIZE m2 (ptr - WSIZE) = ptr + A
    have hw : ptr - WSIZE = ptr - 4 := rfl
    rw [hw, GET_SIZE_eq m2 _ A 1 (by rw [hH2]) hA8 (by omega)]
  have hred : mm_realloc s ptr n =
      ((coalesce { s with mem := m2 } (NEXT_BLOCK m2 ptr)).1, some ptr) := by
    simp only [mm_realloc, hcs]
    rw [if_neg hne, if_pos hlt, ← hAdef, ← hm1def, hnb1, ← hm2def]
  rw [hnb2] at hred
  have hprev_rb : PREVIOUS_BLOCK m2 (ptr + A) = ptr := by
    show ptr + A - GET_SIZE m2 (ptr + A - DSIZE) = ptr
    have hw : ptr + A - DSIZE = ptr + A - 8 := rfl
    rw [hw, GET_SIZE_eq m2 _ A 1 (by rw [hF2]) hA8 (by omega)]
    omega
  have hfoot_ptr : FOOTER m2 ptr = ptr + A - 8 := by
    show ptr + GET_SIZE m2 (HEADER ptr) - DSIZE = ptr + A - 8
    have h3 : HEADER ptr = ptr - 4 := rfl
    rw [h3, GET_SIZE_eq m2 _ A 1 (by rw [hH2]) hA8 (by omega)]
    rfl
  have hpa : GET_ALLOC m2 (FOOTER m2 (PREVIOUS_BLOCK m2 (ptr + A))) = 1 := by
    rw [hprev_rb, hfoot_ptr]
    exact GET_ALLOC_eq m2 _ A 1 (by rw [hF2]) hA8 (by omega)
  by_cases hX : GET_ALLOC m2 (HEADER (NEXT_BLOCK m2 (ptr + A))) = 0
  · obtain ⟨nfp, hcoal⟩ := coalesce_case2 { s with mem := m2 } (ptr + A)
      (show GET_ALLOC m2 (FOOTER m2 (PREVIOUS_BLOCK m2 (ptr + A))) ≠ 0 by
        rw [hpa]; exact one_ne_zero)
      (show GET_ALLOC m2 (HEADER (NEXT_BLOCK m2 (ptr + A))) = 0 from hX)
    dsimp only at hcoal
    refine ⟨_, by rw [hred, hcoal], ?_, ?_⟩
    · show GET (SET_BLOCK_DATA m2 (ptr + A)
        (GET_SIZE m2 (HEADER (ptr + A)) + GET_SIZE m2 (HEADER (NEXT_BLOCK m2 (ptr + A)))) 0)
        (ptr - 4) = A + 1
      have hb : ∀ i, i < 4 → SET_BLOCK_DATA m2 (ptr + A)
          (GET_SIZE m2 (HEADER (ptr + A)) + GET_SIZE m2 (HEADER (NEXT_BLOCK m2 (ptr + A)))) 0
          (ptr - 4 + i) = m2 (ptr - 4 + i) :=
        fun i hi => SBD_out_low m2 (ptr + A) _ 0 _ (by omega)
      rw [GET_congr m2 _ _ hb]
      exact hH2
    · intro a ha1 ha2
      show SET_BLOCK_DATA m2 (ptr + A)
        (GET_SIZE m2 (HEADER (ptr + A)) + GET_SIZE m2 (HEADER (NEXT_BLOCK m2 (ptr + A)))) 0
        a = s.mem a
      rw [SBD_out_low m2 (ptr + A) _ 0 a (by omega), hm2,
        PUT_out _ _ _ _ (Or.inl (by omega)), PUT_out _ _ _ _ (Or.inl (by omega)), hm1,
        PUT_out _ _ _ _ (Or.inl (by omega)), PUT_out _ _ _ _ (Or.inr (by omega))]
  · have hcoal := coalesce_case1 { s with mem := m2 } (ptr + A)
      (show GET_ALLOC m2 (FOOTER m2 (PREVIOUS_BLOCK m2 (ptr + A))) ≠ 0 by
        rw [hpa]; exact one_ne_zero)
      (show GET_ALLOC m2 (HEADER (NEXT_BLOCK m2 (ptr + A))) ≠ 0 from hX)
    refine ⟨_, by rw [hred, hcoal], ?_, ?_⟩
    · exact hH2
    · intro a ha1 ha2
      show m2 a = s.mem a
      rw [hm2, PUT_out _ _ _ _ (Or.inl (by omega)), PUT_out _ _ _ _ (Or.inl (by omega)), hm1,
        PUT_out _ _ _ _ (Or.inl (by omega)), PUT_out _ _ _ _ (Or.inr (by omega))]

/-- `place(ptr, asize)` on a block whose header size is smaller than `asize`
(the corrupt in-place grow of `mm_realloc`): the header is still rewritten to
`asize`, and the bytes of the old payload are untouched (the residual
"free block" tags land far beyond it). -/
theorem place_grow_spec (s : MMState) (ptr psz n : Nat)
    (hcs : GET_SIZE s.mem (HEADER ptr) = psz) (hp8 : psz % 8 = 0) (hp8le : 8 ≤ psz)
    (hp31 : psz < 2 ^ 31) (hptr : 8 ≤ ptr)
    (hlt : psz < adjustedSize n) (hA8 : adjustedSize n % 8 = 0)
    (h16 : 16 ≤ adjustedSize n) (hA31 : adjustedSize n < 2 ^ 31) :
    GET (place s ptr (adjustedSize n)).mem (ptr - 4) = adjustedSize n + 1 ∧
      (∀ a, ptr ≤ a → a + 8 < ptr + psz → (place s ptr (adjustedSize n)).mem a = s.mem a) := by
  set A := adjustedSize n with hAdef
  have hd8 : (A - psz) % 8 = 0 := by omega
  have hd1 : 1 ≤ A - psz := by omega
  have hAmod : A % 2 ^ 32 = A := Nat.mod_eq_of_lt (by omega)
  have hsubv : sub64 psz A = 2 ^ 64 - (A - psz) := sub64_of_lt psz A hlt (by omega)
  have hcut : DSIZE + OVERHEAD ≤ sub64 psz A := by
    rw [hsubv]
    show 16 ≤ 2 ^ 64 - (A - psz)
    omega
  have hmodv : sub64 psz A % 2 ^ 32 = 2 ^ 32 - (A - psz) := by
    rw [hsubv]
    omega
  set m1 := SET_BLOCK_DATA s.mem ptr A 1 with hm1def
  have hm1 : m1 = PUT (PUT s.mem (ptr - 4) (A + 1)) (ptr + A - 8) (A + 1) := by
    rw [hm1def, SBD_eq s.mem ptr A 1 hA8 (by omega), hAmod]
  have hH1 : GET m1 (ptr - 4) = A + 1 := by
    rw [hm1, GET_PP_1 _ _ _ _ _ (by omega)]
    omega
  have hF1 : GET m1 (ptr + A - 8) = A + 1 := by
    rw [hm1, GET_PUT]
    omega
  have hnb1 : NEXT_BLOCK m1 ptr = ptr + A := by
    show ptr + GET_SIZE m1 (ptr - WSIZE) = ptr + A
    have hw : ptr - WSIZE = ptr - 4 := rfl
    rw [hw, GET_SIZE_eq m1 _ A 1 (by rw [hH1]) hA8 (by omega)]
  set m2 := SET_BLOCK_DATA m1 (ptr + A) (sub64 psz A) 0 with hm2def
  have hm2 : m2 = PUT (PUT m1 (ptr + A - 4) (2 ^ 32 - (A - psz)))
      (ptr + psz + 2 ^ 32 - 8) (2 ^ 32 - (A - psz)) := by
    rw [hm2def, SBD_eq m1 (ptr + A) (sub64 psz A) 0 (by rw [hsubv]; omega) (by omega), hmodv]
    simp only [Nat.add_zero]
    have hfp : ptr + A + (2 ^ 32 - (A - psz)) - 8 = ptr + psz + 2 ^ 32 - 8 := by omega
    rw [hfp]
  have hH2 : GET m2 (ptr - 4) = A + 1 := by
    rw [hm2, GET_PP_out _ _ _ _ _ _ (by omega) (by omega)]
    exact hH1
  have hF2 : GET m2 (ptr + A - 8) = A + 1 := by
    rw [hm2, GET_PP_out _ _ _ _ _ _ (by omega) (by omega)]
    exact hF1
  have hred : place s ptr A = (coalesce { s with mem := m2 } (ptr + A)).1 := by
    simp only [place, hcs]
    rw [if_pos hcut, ← hm1def, hnb1, ← hm2def]
  have hprev_rb : PREVIOUS_BLOCK m2 (ptr + A) = ptr := by
    show ptr + A - GET_SIZE m2 (ptr + A - DSIZE) = ptr
    have hw : ptr + A - DSIZE = ptr + A - 8 := rfl
    rw [hw, GET_SIZE_eq m2 _ A 1 (by rw [hF2]) hA8 (by omega)]
    omega
  have hfoot_ptr : FOOTER m2 ptr = ptr + A - 8 := by
    show ptr + GET_SIZE m2 (HEADER ptr) - DSIZE = ptr + A - 8
    have h3 : HEADER ptr = ptr - 4 := rfl
    rw [h3, GET_SIZE_eq m2 _ A 1 (by rw [hH2]) hA8 (by omega)]
    rfl
  have hpa : GET_ALLOC m2 (FOOTER m2 (PREVIOUS_BLOCK m2 (ptr + A))) = 1 := by
    rw [hprev_rb, hfoot_ptr]
    exact GET_ALLOC_eq m2 _ A 1 (by rw [hF2]) hA8 (by omega)
  by_cases hX : GET_ALLOC m2 (HEADER (NEXT_BLOCK m2 (ptr + A))) = 0
  · obtain ⟨nfp, hcoal⟩ := coalesce_case2 { s with mem := m2 } (ptr + A)
      (show GET_ALLOC m2 (FOOTER m2 (PREVIOUS_BLOCK m2 (ptr + A))) ≠ 0 by
        rw [hpa]; exact one_ne_zero)
      (show GET_ALLOC m2 (HEADER (NEXT_BLOCK m2 (ptr + A))) = 0 from hX)
    dsimp only at hcoal
    rw [hred, hcoal]
    constructor
    · show GET (SET_BLOCK_DATA m2 (ptr + A)
        (GET_SIZE m2 (HEADER (ptr + A)) + GET_SIZE m2 (HEADER (NEXT_BLOCK m2 (ptr + A)))) 0)
        (ptr - 4) = A + 1
      have hb : ∀ i, i < 4 → SET_BLOCK_DATA m2 (ptr + A)
          (GET_SIZE m2 (HEADER (ptr + A)) + GET_SIZE m2 (HEADER (NEXT_BLOCK m2 (ptr + A)))) 0
          (ptr - 4 + i) = m2 (ptr - 4 + i) :=
        fun i hi => SBD_out_low m2 (ptr + A) _ 0 _ (by omega)
      rw [GET_congr m2 _ _ hb]
      exact hH2
    · intro a ha1 ha2
      show SET_BLOCK_DATA m2 (ptr + A)
        (GET_SIZE m2 (HEADER (ptr + A)) + GET_SIZE m2 (HEADER (NEXT_BLOCK m2 (ptr + A)))) 0
        a = s.mem a
      rw [SBD_out_low m2 (ptr + A) _ 0 a (by omega), hm2,
        PUT_out _ _ _ _ (Or.inl (by omega)), PUT_out _ _ _ _ (Or.inl (by omega)), hm1,
        PUT_out _ _ _ _ (Or.inl (by omega)), PUT_out _ _ _ _ (Or.inr (by omega))]
  · have hcoal := coalesce_case1 { s with mem := m2 } (ptr + A)
      (show GET_ALLOC m2 (FOOTER m2 (PREVIOUS_BLOCK m2 (ptr + A))) ≠ 0 by
        rw [hpa]; exact one_ne_zero)
      (show GET_ALLOC m2 (HEADER (NEXT_BLOCK m2 (ptr + A))) ≠ 0 from hX)
    rw [hred, hcoal]
    constructor
    · exact hH2
    · intro a ha1 ha2
      show m2 a = s.mem a
      rw [hm2, PUT_out _ _ _ _ (Or.inl (by omega)), PUT_out _ _ _ _ (Or.inl (by omega)), hm1,
        PUT_out _ _ _ _ (Or.inl (by omega)), PUT_out _ _ _ _ (Or.inr (by omega))]
